import Mathlib

/-!
Verification of the dragonradio link core (slotted MAC + ARQ/AMC controller).

The development shallowly embeds the sequence-number arithmetic of
`src/Packet.hh` and the state-manipulating fragments of
`src/mac/SmartController.cc` and `src/mac/SlottedMAC.cc`.

Conventions of the embedding:

- A `Seq` (a `uint16_t` wraparound counter) is represented by a `Nat`
  holding an unwrapped counter value; every comparison is computed on the
  16-bit images exactly as the C++ operators do (signed 16-bit view of the
  wrapped difference), so the embedding projects onto the machine values
  through `u16`.
- Clock values (`MonoClock::time_point`) are abstracted to `Nat` instants;
  only their ordering and addition are used by the embedded code.
- Source `while`/`for` loops over sequence numbers run until a modular
  comparison fails.  They are embedded as fuel-bounded loops with fuel
  `65536`; since the modular distance to the stop value is below `65536`
  and strictly decreases at every iteration, the fuel never runs out.
  An adequacy lemma per loop proves that the loop condition is false at
  the result, so the fuel-bounded function provably computes the limit of
  the source loop.
-/

/-- Truncation to 16 bits, the value stored in a `uint16_t`. -/
def u16 (x : Nat) : Nat := x % 65536

/-- Reinterpretation of a 16-bit value as a signed `int16_t`
(the `static_cast<int16_t>` in the `Seq` comparison operators). -/
def i16 (x : Nat) : Int := if u16 x < 32768 then (u16 x : Int) else (u16 x : Int) - 65536

/-- Wrapping `uint16_t` subtraction `a - b`, as computed inside
`Seq::operator<` and friends (`seq_ - other.seq_`). -/
def sub16 (a b : Nat) : Nat := (u16 a + 65536 - u16 b) % 65536

/-- `Seq::operator<`: `static_cast<int16_t>(seq_ - other.seq_) < 0`. -/
def seqLt (a b : Nat) : Bool := i16 (sub16 a b) < 0

/-- `Seq::operator<=`: `static_cast<int16_t>(seq_ - other.seq_) <= 0`. -/
def seqLe (a b : Nat) : Bool := i16 (sub16 a b) ≤ 0

/-- `Seq::operator>`: `static_cast<int16_t>(seq_ - other.seq_) > 0`. -/
def seqGt (a b : Nat) : Bool := i16 (sub16 a b) > 0

/-- `Seq::operator>=`: `static_cast<int16_t>(seq_ - other.seq_) >= 0`. -/
def seqGe (a b : Nat) : Bool := i16 (sub16 a b) ≥ 0

/-- The signed 16-bit view of the wrapped difference is the centered
residue of the true difference. -/
theorem i16_sub16 (a b : Nat) :
    i16 (sub16 a b) = ((a : Int) - b + 32768) % 65536 - 32768 := by
  unfold i16 sub16 u16
  split <;> omega

/-- When the unwrapped counters are less than `2^15` apart, `Seq` order
agrees with true order: the `<` case. -/
theorem seqLt_iff {a b : Nat} (h : (a : Int) - b < 32768) (h2 : (b : Int) - a < 32768) :
    seqLt a b = true ↔ a < b := by
  unfold seqLt
  rw [i16_sub16]
  constructor
  · intro hb
    simp only [decide_eq_true_eq] at hb
    omega
  · intro hb
    simp only [decide_eq_true_eq]
    omega

/-- When the unwrapped counters are less than `2^15` apart, `Seq` order
agrees with true order: the `<=` case. -/
theorem seqLe_iff {a b : Nat} (h : (a : Int) - b < 32768) (h2 : (b : Int) - a < 32768) :
    seqLe a b = true ↔ a ≤ b := by
  unfold seqLe
  rw [i16_sub16]
  constructor
  · intro hb
    simp only [decide_eq_true_eq] at hb
    omega
  · intro hb
    simp only [decide_eq_true_eq]
    omega

/-- When the unwrapped counters are less than `2^15` apart, `Seq` order
agrees with true order: the `>` case. -/
theorem seqGt_iff {a b : Nat} (h : (a : Int) - b < 32768) (h2 : (b : Int) - a < 32768) :
    seqGt a b = true ↔ b < a := by
  unfold seqGt
  rw [i16_sub16]
  constructor
  · intro hb
    simp only [decide_eq_true_eq] at hb
    omega
  · intro hb
    simp only [decide_eq_true_eq]
    omega

/-- When the unwrapped counters are less than `2^15` apart, `Seq` order
agrees with true order: the `>=` case. -/
theorem seqGe_iff {a b : Nat} (h : (a : Int) - b < 32768) (h2 : (b : Int) - a < 32768) :
    seqGe a b = true ↔ b ≤ a := by
  unfold seqGe
  rw [i16_sub16]
  constructor
  · intro hb
    simp only [decide_eq_true_eq] at hb
    omega
  · intro hb
    simp only [decide_eq_true_eq]
    omega

/-- C1: the `Seq` comparison operators compute modular order via signed
16-bit difference (definitional agreement with `(int16_t)(a - b)` for each
of `<`, `<=`, `>`, `>=`), and for every pair of unwrapped counters whose
distance is below `2^15` this order agrees with the true order of the
counters. -/
theorem seq_operators_signed_difference_and_correct (a b A B : Nat)
    (hAB : (A : Int) - B < 32768) (hBA : (B : Int) - A < 32768) :
    (seqLt a b = decide (i16 (sub16 a b) < 0) ∧
     seqLe a b = decide (i16 (sub16 a b) ≤ 0) ∧
     seqGt a b = decide (i16 (sub16 a b) > 0) ∧
     seqGe a b = decide (i16 (sub16 a b) ≥ 0)) ∧
    ((seqLt A B = true ↔ A < B) ∧
     (seqLe A B = true ↔ A ≤ B) ∧
     (seqGt A B = true ↔ B < A) ∧
     (seqGe A B = true ↔ B ≤ A)) := by
  refine ⟨⟨rfl, rfl, rfl, rfl⟩, ?_, ?_, ?_, ?_⟩
  · exact seqLt_iff hAB hBA
  · exact seqLe_iff hAB hBA
  · exact seqGt_iff hAB hBA
  · exact seqGe_iff hAB hBA

/-- Witness for C1 at concrete inputs: comparing the wrapped images of the
unwrapped counters 65535 and 65537 (which wrap to 65535 and 1). -/
theorem seq_operators_signed_difference_and_correct_witness :
    ((65535 : Int) - 65537 < 32768) ∧ ((65537 : Int) - 65535 < 32768) ∧
    (seqLt 65535 65537 = true ↔ 65535 < 65537) := by
  refine ⟨by decide, by decide, ?_⟩
  exact ((seq_operators_signed_difference_and_correct 0 0 65535 65537
    (by decide) (by decide)).2).1

/-- Propositional form of `seqLe`, used to state monotonicity in `Seq`
(cyclic) order. -/
def SLe (a b : Nat) : Prop := seqLe a b = true

instance (a b : Nat) : Decidable (SLe a b) :=
  inferInstanceAs (Decidable (seqLe a b = true))

/-- Comparing a counter with itself: `a < a` is false. -/
theorem seqLt_self (a : Nat) : seqLt a a = false := by
  unfold seqLt
  rw [i16_sub16]
  simp only [decide_eq_false_iff_not]
  omega

/-- A cyclic-order fact used by the `per_end` updates of
`handleSelectiveACK`: if `s >= per_end` holds in `Seq` order then the
write `per_end := s + 1` moves `per_end` forward in `Seq` order. -/
theorem sle_succ_of_seqGe {s p : Nat} (h : seqGe s p = true) : SLe p (s + 1) := by
  unfold seqGe at h
  unfold SLe seqLe
  rw [i16_sub16] at h ⊢
  simp only [ge_iff_le, decide_eq_true_eq] at h ⊢
  omega

/-- A cyclic-order fact used by the `per_end` update after the cumulative
ACK loop: `a > b` in `Seq` order implies `b <= a` in `Seq` order. -/
theorem sle_of_seqGt {a b : Nat} (h : seqGt a b = true) : SLe b a := by
  unfold seqGt at h
  unfold SLe seqLe
  rw [i16_sub16] at h ⊢
  simp only [gt_iff_lt, decide_eq_true_eq] at h ⊢
  omega

/-! ## Send-window state (`SendWindow` of `mac/SmartController.hh`, with the
fields the current `SmartController.cc` manipulates)

The entry array `entries_` is circular: `sendw[seq]` reads
`entries_[seq % entries_.size()]`.  The retransmission timers of the
`TimerQueue` are abstracted to one boolean per entry slot (running or not),
and the statistics sinks (`ack_delay` EMA, `short_per`/`long_per` EMAs) are
abstracted to the list of recorded ACK delays and counters of
`txSuccess`/`txFailure` calls, which is all the claims observe of them. -/

/-- One `SendWindow::Entry`: whether `pkt` is non-null, and the send
timestamp recorded by `pull`. -/
structure SWEntry where
  present : Bool
  timestamp : Nat
deriving Repr, DecidableEq

/-- The send-window state, together with the observation instrumentation
described above.  `perWrites` logs every value assigned to `per_end`
(seeded with the initial value), `retransQueue` logs the sequence numbers
re-queued by `retransmit`, and `queueOpen` mirrors the
`netq_->setSendWindowStatus` flag for this destination. -/
structure SendW where
  unack : Nat
  maxSeq : Nat
  seqn : Nat
  per_end : Nat
  win : Nat
  maxwin : Nat
  ents : Nat → SWEntry
  timerOn : Nat → Bool
  ackRecords : List Nat
  nTxSuccess : Nat
  nTxFailure : Nat
  retransQueue : List Nat
  perWrites : List Nat
  queueOpen : Bool
  locally_updated : Bool
  new_window : Bool

/-- The circular index of `sendw[seq]`: `seq % entries_.size()` computed on
the wrapped 16-bit sequence number. -/
def entIdx (st : SendW) (s : Nat) : Nat := u16 s % st.maxwin

/-- Read `sendw[seq]`. -/
def getEnt (st : SendW) (s : Nat) : SWEntry := st.ents (entIdx st s)

/-- Write `sendw[seq]`. -/
def setEnt (st : SendW) (s : Nat) (e : SWEntry) : SendW :=
  { st with ents := fun i => if i = entIdx st s then e else st.ents i }

/-- Set or clear the retransmission timer of the entry `sendw[seq]`
(`timer_queue_.run_in` / `timer_queue_.cancel`). -/
def setTimer (st : SendW) (s : Nat) (b : Bool) : SendW :=
  { st with timerOn := fun i => if i = entIdx st s then b else st.timerOn i }

/-- Assignment `sendw.per_end = v`, logged in `perWrites`. -/
def writePerEnd (st : SendW) (v : Nat) : SendW :=
  { st with per_end := v, perWrites := st.perWrites ++ [v] }

/-- `SmartController::txSuccess`: update `short_per`/`long_per` with 0,
abstracted to a success counter. -/
def txSucc (st : SendW) : SendW := { st with nTxSuccess := st.nTxSuccess + 1 }

/-- `SmartController::txFailure`: update `short_per`/`long_per` with 1,
abstracted to a failure counter. -/
def txFail (st : SendW) : SendW := { st with nTxFailure := st.nTxFailure + 1 }

/-- `SmartController::handleACK(sendw, seq)`: ignore ACKs outside
`[unack, unack + win)` and ACKs of already-released entries; otherwise
record the ACK delay (`sendw.recordACK(entry.timestamp)`), cancel the
retransmission timer and release the entry. -/
def handleACK (st : SendW) (s : Nat) : SendW :=
  if seqLt s st.unack || seqGe s (st.unack + st.win) then st
  else if !(getEnt st s).present then st
  else
    let st1 : SendW := { st with ackRecords := st.ackRecords ++ [(getEnt st s).timestamp] }
    let st2 := setTimer st1 s false
    setEnt st2 s { present := false, timestamp := (getEnt st s).timestamp }

/-- `SmartController::startRetransmissionTimer`: start the timer if the
entry still holds a packet and the timer is not already running. -/
def startRetransTimer (st : SendW) (s : Nat) : SendW :=
  if (getEnt st s).present && !(st.timerOn (entIdx st s)) then setTimer st s true else st

/-- Static configuration read by the controller code: whether the
destination node can transmit, whether the local node can transmit,
whether a network queue has been set, and the `move_along_` flag. -/
structure Cfg where
  peerCanTransmit : Bool
  meCanTransmit : Bool
  hasNetq : Bool
  moveAlong : Bool

/-- `SmartController::retransmit(entry)`: when the destination cannot
transmit, cancel and restart the retransmission timer; otherwise cancel
the timer and re-queue the packet (`netq_->repush`) when the local node
can transmit, else restart the timer. -/
def retransmitEnt (cfg : Cfg) (st : SendW) (s : Nat) : SendW :=
  if !cfg.peerCanTransmit then startRetransTimer (setTimer st s false) s
  else if !(getEnt st s).present then st
  else
    let st1 := setTimer st s false
    if cfg.meCanTransmit then
      if cfg.hasNetq then { st1 with retransQueue := st1.retransQueue ++ [s] } else st1
    else startRetransTimer st1 s

/-- The advance loop of `SmartController::advanceSendWindow`:
`while (unack <= max && !sendw[unack]) ++unack`, fuel-bounded. -/
def advLoopF : Nat → SendW → SendW
  | 0, st => st
  | fuel + 1, st =>
    if seqLe st.unack st.maxSeq && !(getEnt st st.unack).present then
      advLoopF fuel { st with unack := st.unack + 1 }
    else st

/-- Adequacy of the fuel bound for `advLoopF`: with fuel at least the
modular distance from `unack` to `max + 1`, the loop condition is false at
the result, so the function computes the limit of the source loop. -/
theorem advLoopF_cond_false (fuel : Nat) (st : SendW)
    (h : (u16 st.maxSeq + 1 + 65536 - u16 st.unack) % 65536 ≤ fuel) :
    (seqLe (advLoopF fuel st).unack (advLoopF fuel st).maxSeq &&
      !(getEnt (advLoopF fuel st) (advLoopF fuel st).unack).present) = false := by
  induction fuel generalizing st with
  | zero =>
    have hle : seqLe st.unack st.maxSeq = false := by
      unfold seqLe
      rw [i16_sub16]
      simp only [decide_eq_false_iff_not, not_le]
      revert h
      unfold u16
      omega
    simp only [advLoopF]
    rw [hle]
    rfl
  | succ n ih =>
    rw [advLoopF]
    by_cases hc : (seqLe st.unack st.maxSeq && !(getEnt st st.unack).present) = true
    · rw [if_pos hc]
      apply ih
      have hle : seqLe st.unack st.maxSeq = true := by
        cases hle2 : seqLe st.unack st.maxSeq
        · rw [hle2] at hc; simp at hc
        · rfl
      unfold seqLe at hle
      rw [i16_sub16] at hle
      simp only [decide_eq_true_eq] at hle
      show (u16 st.maxSeq + 1 + 65536 - u16 (st.unack + 1)) % 65536 ≤ n
      revert h hle
      unfold u16
      omega
    · rw [if_neg hc]
      simpa using hc

/-- The fuel `65536` suffices for every state (the modular distance is
always below `65536`). -/
theorem advLoopF_fuel_ok (st : SendW) :
    (u16 st.maxSeq + 1 + 65536 - u16 st.unack) % 65536 ≤ 65536 := by
  omega

/-- `SmartController::advanceSendWindow`: slide `unack` past released
entries, re-open the window to `maxwin`, and re-enable the net queue for
this destination when the window is open. -/
def advanceSendWindow (st : SendW) : SendW :=
  let st1 := advLoopF 65536 st
  let st2 : SendW := { st1 with win := st1.maxwin }
  if seqLt st2.seqn (st2.unack + st2.win) then { st2 with queueOpen := true } else st2

/-- `SmartController::drop(entry)`: if the entry has already been
released, do nothing; otherwise cancel the retransmission timer, release
the packet, advance the send window, and set `locally_updated` if `unack`
moved. -/
def dropEnt (st : SendW) (s : Nat) : SendW :=
  if !(getEnt st s).present then st
  else
    let st1 := setTimer st s false
    let st2 := setEnt st1 s { present := false, timestamp := (getEnt st s).timestamp }
    let old := st2.unack
    let st3 := advanceSendWindow st2
    if seqGt st3.unack old then { st3 with locally_updated := true } else st3

/-- One iteration of the cumulative-ACK loop of
`SmartController::received`: `handleACK(sendw, unack)`, then score a TX
success if `unack >= per_end`, then `++unack`. -/
def ackStep (st : SendW) : SendW :=
  let st1 := handleACK st st.unack
  let st2 := if seqGe st1.unack st1.per_end then txSucc st1 else st1
  { st2 with unack := st.unack + 1 }

/-- The cumulative-ACK loop of `SmartController::received`:
`for (; unack < eack && unack <= max; ++unack)`, fuel-bounded. -/
def ackLoopF (eack : Nat) : Nat → SendW → SendW
  | 0, st => st
  | fuel + 1, st =>
    if seqLt st.unack eack && seqLe st.unack st.maxSeq then
      ackLoopF eack fuel (ackStep st)
    else st

/-- `handleACK` leaves `unack` unchanged. -/
theorem handleACK_unack (st : SendW) (s : Nat) : (handleACK st s).unack = st.unack := by
  unfold handleACK setTimer setEnt
  split
  · rfl
  · split <;> rfl

/-- `ackStep` increments `unack`. -/
theorem ackStep_unack (st : SendW) : (ackStep st).unack = st.unack + 1 := rfl

/-- Adequacy of the fuel bound for `ackLoopF`: with fuel at least the
modular distance from `unack` to `eack`, the loop condition is false at
the result. -/
theorem ackLoopF_cond_false (eack fuel : Nat) (st : SendW)
    (h : (u16 eack + 65536 - u16 st.unack) % 65536 ≤ fuel) :
    (seqLt (ackLoopF eack fuel st).unack eack &&
      seqLe (ackLoopF eack fuel st).unack (ackLoopF eack fuel st).maxSeq) = false := by
  induction fuel generalizing st with
  | zero =>
    have hlt : seqLt st.unack eack = false := by
      unfold seqLt
      rw [i16_sub16]
      simp only [decide_eq_false_iff_not, not_lt]
      revert h
      unfold u16
      omega
    simp only [ackLoopF]
    rw [hlt]
    rfl
  | succ n ih =>
    rw [ackLoopF]
    by_cases hc : (seqLt st.unack eack && seqLe st.unack st.maxSeq) = true
    · rw [if_pos hc]
      apply ih
      have hlt : seqLt st.unack eack = true := by
        cases hlt2 : seqLt st.unack eack
        · rw [hlt2] at hc; simp at hc
        · rfl
      unfold seqLt at hlt
      rw [i16_sub16] at hlt
      simp only [decide_eq_true_eq] at hlt
      rw [ackStep_unack]
      revert h hlt
      unfold u16
      omega
    · rw [if_neg hc]
      simpa using hc

/-- The cumulative-ACK fragment of `SmartController::received` (the body
of `if (pkt->ehdr().ack > sendw.unack)` plus the guarded `per_end`
update that follows the loop). -/
def recvAckFrag (st : SendW) (eack : Nat) : SendW :=
  if seqGt eack st.unack then
    let st1 := ackLoopF eack 65536 st
    if seqGt st1.unack st1.per_end then writePerEnd st1 st1.unack else st1
  else st

/-- The body of the gap loop of `SmartController::handleSelectiveACK`: a
sequence number between two ACK runs is scored as a TX failure and
retransmitted when it is at or past `per_end`, still pending, and was sent
before the feedback horizon; a released entry just advances `per_end`. -/
def gapStep (cfg : Cfg) (tfb : Nat) (st : SendW) (s : Nat) : SendW :=
  if seqGe s st.per_end then
    if (getEnt st s).present then
      if (getEnt st s).timestamp < tfb then
        let st1 := txFail st
        let st2 := retransmitEnt cfg st1 s
        writePerEnd st2 (s + 1)
      else st
    else writePerEnd st (s + 1)
  else st

/-- The gap loop `for (seq = nextSeq; seq < begin; ++seq)` of
`SmartController::handleSelectiveACK`, fuel-bounded. -/
def gapLoopF (cfg : Cfg) (tfb b : Nat) : Nat → Nat → SendW → SendW
  | 0, _, st => st
  | fuel + 1, s, st =>
    if seqLt s b then gapLoopF cfg tfb b fuel (s + 1) (gapStep cfg tfb st s) else st

/-- The body of the ACK-run loop of `SmartController::handleSelectiveACK`:
ACK the sequence number if it is at or past `unack`, then score a TX
success and advance `per_end` when it is at or past `per_end` and was sent
before the feedback horizon. -/
def runStep (tfb : Nat) (st : SendW) (s : Nat) : SendW :=
  let st1 := if seqGe s st.unack then handleACK st s else st
  if seqGe s st1.per_end && (getEnt st1 s).timestamp < tfb then
    writePerEnd (txSucc st1) (s + 1)
  else st1

/-- The ACK-run loop `for (seq = begin; seq < end; ++seq)` of
`SmartController::handleSelectiveACK`, fuel-bounded. -/
def runLoopF (tfb en : Nat) : Nat → Nat → SendW → SendW
  | 0, _, st => st
  | fuel + 1, s, st =>
    if seqLt s en then runLoopF tfb en fuel (s + 1) (runStep tfb st s) else st

/-- Processing of one `SelectiveAck(begin, end)` TLV: the gap
`[nextSeq, begin)` is treated as selective NAKs, the run `[begin, end)` as
selective ACKs, and `nextSeq` becomes `end`. -/
def sackRange (cfg : Cfg) (tfb : Nat) (acc : SendW × Nat) (r : Nat × Nat) : SendW × Nat :=
  let st := acc.1
  let nextSeq := acc.2
  let st1 := if seqLt nextSeq r.1 then gapLoopF cfg tfb r.1 65536 nextSeq st else st
  let st2 := runLoopF tfb r.2 65536 r.1 st1
  (st2, r.2)

/-- `SmartController::handleSelectiveACK`: fold over the `SelectiveAck`
TLVs of the packet, with `nextSeq` starting at `sendw.unack`. -/
def handleSelectiveACKm (cfg : Cfg) (tfb : Nat) (st : SendW) (ranges : List (Nat × Nat)) :
    SendW :=
  (ranges.foldl (sackRange cfg tfb) (st, st.unack)).1

/-! ## The pull path (`SmartController::pull` and
`SmartController::getPacket`)

A packet coming out of the network queue is abstracted to the fields the
pull path inspects.  The per-packet drop predicates
(`Entry::mayDrop(max_retransmissions_)`, evaluated on the oldest window
entry, and `NetPacket::shouldDrop(now)`, evaluated on the popped packet)
depend on packet payload not otherwise modelled, so they enter as the
boolean oracle `mayDropF` and the per-packet field `shouldDrop`. -/

/-- A `NetPacket` as seen by the pull path. -/
structure InPkt where
  broadcast : Bool
  dataLen : Nat
  hasSeq : Bool
  seq : Nat
  shouldDrop : Bool
  retransmission : Bool
  nretrans : Nat
deriving Repr, DecidableEq

/-- The send-window section of `SmartController::pull` for a data-bearing
packet: re-check the window (`none` means the packet is dropped and the
pull loop retries), then store the packet with the current send timestamp,
bump the retransmission count, advance `max`, and append the `SetUnack`
control message if the window was locally updated. -/
def pullStage (now : Nat) (st : SendW) (p : InPkt) : Option (InPkt × SendW) :=
  if seqLt p.seq st.unack then none
  else if seqLt p.seq st.unack || seqGe p.seq (st.unack + st.win) then none
  else
    let st1 := setEnt st p.seq { present := true, timestamp := now }
    let p1 := if p.retransmission then { p with nretrans := p.nretrans + 1 } else p
    let st2 := if seqGt p.seq st1.maxSeq then { st1 with maxSeq := p.seq } else st1
    if st2.locally_updated then some (p1, { st2 with locally_updated := false })
    else some (p1, st2)

/-- The sequence-assignment stage of `SmartController::getPacket` for a
packet without a sequence number: possibly drop the oldest entry to move
the window along, assign `pkt.seq := sendw.seq++`, clear `new_window`
(the SYN flag of the packet is set from it), and close the net queue for
this destination when the window is now full and cannot move along. -/
def assignSeq (cfg : Cfg) (mayDropF : Nat → Bool) (st : SendW) (p : InPkt) : InPkt × SendW :=
  let st1 := if seqGe st.seqn (st.unack + st.win) && mayDropF st.unack then
               dropEnt st st.unack
             else st
  let p1 : InPkt := { p with seq := st1.seqn, hasSeq := true }
  let st2 : SendW := { st1 with seqn := st1.seqn + 1 }
  let st3 := if st2.new_window then { st2 with new_window := false } else st2
  let st4 := if seqGe st3.seqn (st3.unack + st3.win) &&
                (((getEnt st3 st3.unack).present && !(mayDropF st3.unack)) ||
                  !cfg.moveAlong || st3.win == 1) then
               { st3 with queueOpen := false }
             else st3
  (p1, st4)

/-- Handling of one packet popped from the network queue inside the
combined `SmartController::pull` / `SmartController::getPacket` loop.
Broadcast packets and packets without data return immediately (`.inl`);
a fresh packet gets the next sequence number through `assignSeq`; a
packet that already has a sequence number is dropped and the loop
retries (`.inr`, with the state to continue from) when it falls before
the window, lies beyond it, or should be dropped by deadline; finally
`pullStage` performs the pull-side window check and stores the packet. -/
def pullOne (cfg : Cfg) (mayDropF : Nat → Bool) (now : Nat) (st : SendW) (p : InPkt) :
    Option (InPkt × SendW) ⊕ SendW :=
  if p.broadcast then .inl (some (p, st))
  else if p.dataLen == 0 then .inl (some (p, st))
  else if !p.hasSeq then
    let a := assignSeq cfg mayDropF st p
    match pullStage now a.2 a.1 with
    | some r => .inl (some r)
    | none => .inr a.2
  else
    if seqLt p.seq st.unack then .inr st
    else if seqGe p.seq (st.unack + st.win) then .inr st
    else if p.shouldDrop then .inr (dropEnt st p.seq)
    else
      match pullStage now st p with
      | some r => .inl (some r)
      | none => .inr st

/-- The combined `SmartController::pull` / `SmartController::getPacket`
loop over the stream of packets available from the network queue:
process one packet at a time with `pullOne` until a packet is returned
or the queue is exhausted. -/
def pullM (cfg : Cfg) (mayDropF : Nat → Bool) (now : Nat) :
    SendW → List InPkt → Option (InPkt × SendW)
  | _, [] => none
  | st, p :: rest =>
    match pullOne cfg mayDropF now st p with
    | .inl r => r
    | .inr st' => pullM cfg mayDropF now st' rest

/-! ## The controller event machine

Events are the operations of the claims: a `pull` (drawing from a given
stream of queue packets), a `transmitted` confirmation (which starts the
retransmission timer), the cumulative-ACK fragment of `received`, the
selective-ACK fragment of `received`, and an MCS change through
`setMCS` (which assigns `per_end := sendw.seq`). -/

/-- Controller events touching one send window. -/
inductive ArqEv where
  | pull (mayDropF : Nat → Bool) (now : Nat) (inputs : List InPkt)
  | transmitted (s : Nat)
  | recvAck (eack : Nat)
  | recvSack (tfb : Nat) (ranges : List (Nat × Nat))
  | setMCS

/-- One controller event applied to a send window. `setMCS` performs the
`per_end`-relevant assignment `sendw.per_end = sendw.seq` of
`SmartController::setMCS` (the MCS index itself and the PER estimator
windows live outside this state). After the cumulative ACK the
`received` path runs `advanceSendWindow`. -/
def arqStep (cfg : Cfg) (st : SendW) : ArqEv → SendW
  | .pull f now inputs =>
    match pullM cfg f now st inputs with
    | some r => r.2
    | none => st
  | .transmitted s => startRetransTimer st s
  | .recvAck e => advanceSendWindow (recvAckFrag st e)
  | .recvSack tfb rs => handleSelectiveACKm cfg tfb st rs
  | .setMCS => writePerEnd st st.seqn

/-- Run a list of controller events. -/
def runEvs (cfg : Cfg) (st : SendW) (evs : List ArqEv) : SendW :=
  evs.foldl (arqStep cfg) st

/-! ## C2: the cumulative-ACK fragment -/

/-- A counter is never `Seq`-at-or-past the end of a window of size
1 to 32768 that starts at it. -/
theorem seqGe_add_win_false {a w : Nat} (h1 : 1 ≤ w) (h2 : w ≤ 32768) :
    seqGe a (a + w) = false := by
  unfold seqGe
  rw [i16_sub16]
  simp only [ge_iff_le, decide_eq_false_iff_not, not_le]
  omega

/-- `handleACK` at the loop cursor `unack` never takes the
outside-window branch (for window sizes 1 to 32768): it releases the
entry when present and is a no-op otherwise. -/
theorem handleACK_at_unack (st : SendW) (hw1 : 1 ≤ st.win) (hw2 : st.win ≤ 32768) :
    handleACK st st.unack =
      if (getEnt st st.unack).present then
        { st with
          ackRecords := st.ackRecords ++ [(getEnt st st.unack).timestamp],
          timerOn := fun i => if i = entIdx st st.unack then false else st.timerOn i,
          ents := fun i => if i = entIdx st st.unack then
                    { present := false, timestamp := (getEnt st st.unack).timestamp }
                  else st.ents i }
      else st := by
  unfold handleACK
  rw [seqLt_self, seqGe_add_win_false hw1 hw2]
  cases hp : (getEnt st st.unack).present
  · simp [hp]
  · simp only [Bool.or_self, Bool.false_eq_true, if_false, hp, Bool.not_true,
      Bool.true_eq_false]
    unfold setTimer setEnt
    rfl

/-- Explicit form of one cumulative-ACK iteration. -/
theorem ackStep_eq (st : SendW) (hw1 : 1 ≤ st.win) (hw2 : st.win ≤ 32768) :
    ackStep st =
      let stA := if (getEnt st st.unack).present then
          { st with
            ackRecords := st.ackRecords ++ [(getEnt st st.unack).timestamp],
            timerOn := fun i => if i = entIdx st st.unack then false else st.timerOn i,
            ents := fun i => if i = entIdx st st.unack then
                      { present := false, timestamp := (getEnt st st.unack).timestamp }
                    else st.ents i }
        else st
      let stB := if seqGe st.unack st.per_end then { stA with nTxSuccess := stA.nTxSuccess + 1 }
                 else stA
      { stB with unack := st.unack + 1 } := by
  have h := handleACK_at_unack st hw1 hw2
  simp only [ackStep, h, txSucc]
  cases hp : (getEnt st st.unack).present <;>
    cases hq : seqGe st.unack st.per_end <;>
      simp [hp, hq]

/-- Iterating the cumulative-ACK body a fixed number of times. -/
def iterSteps : Nat → SendW → SendW
  | 0, st => st
  | n + 1, st => iterSteps n (ackStep st)

/-- One cumulative-ACK iteration leaves all fields other than `unack`,
the entries, the timers, the ACK records and the success counter
unchanged. -/
theorem ackStep_frame (st : SendW) (hw1 : 1 ≤ st.win) (hw2 : st.win ≤ 32768) :
    (ackStep st).maxSeq = st.maxSeq ∧ (ackStep st).win = st.win ∧
    (ackStep st).per_end = st.per_end ∧ (ackStep st).maxwin = st.maxwin ∧
    (ackStep st).perWrites = st.perWrites ∧ (ackStep st).seqn = st.seqn := by
  rw [ackStep_eq st hw1 hw2]
  cases hp : (getEnt st st.unack).present <;>
    cases hq : seqGe st.unack st.per_end <;> simp [hp, hq]

/-- One cumulative-ACK iteration never creates an entry. -/
theorem ackStep_ents_mono (st : SendW) (hw1 : 1 ≤ st.win) (hw2 : st.win ≤ 32768) (i : Nat)
    (h : ((ackStep st).ents i).present = true) : (st.ents i).present = true := by
  rw [ackStep_eq st hw1 hw2] at h
  cases hp : (getEnt st st.unack).present <;>
    cases hq : seqGe st.unack st.per_end <;>
      simp only [hp, hq, Bool.false_eq_true, Bool.true_eq_false, if_false, if_true] at h <;>
        (try exact h) <;>
          by_cases hi : i = entIdx st st.unack <;> simp [hi] at h <;> exact h

/-- One cumulative-ACK iteration never changes an entry timestamp. -/
theorem ackStep_ents_ts (st : SendW) (hw1 : 1 ≤ st.win) (hw2 : st.win ≤ 32768) (i : Nat) :
    ((ackStep st).ents i).timestamp = (st.ents i).timestamp := by
  rw [ackStep_eq st hw1 hw2]
  cases hp : (getEnt st st.unack).present <;>
    cases hq : seqGe st.unack st.per_end <;>
      simp only [hp, hq, Bool.false_eq_true, Bool.true_eq_false, if_false, if_true] <;>
        by_cases hi : i = entIdx st st.unack <;> simp [hi, getEnt]

/-- One cumulative-ACK iteration never starts a timer. -/
theorem ackStep_timer_mono (st : SendW) (hw1 : 1 ≤ st.win) (hw2 : st.win ≤ 32768) (i : Nat)
    (h : (ackStep st).timerOn i = true) : st.timerOn i = true := by
  rw [ackStep_eq st hw1 hw2] at h
  cases hp : (getEnt st st.unack).present <;>
    cases hq : seqGe st.unack st.per_end <;>
      simp only [hp, hq, Bool.false_eq_true, Bool.true_eq_false, if_false, if_true] at h <;>
        (try exact h) <;>
          by_cases hi : i = entIdx st st.unack <;> simp [hi] at h <;> exact h

/-- One cumulative-ACK iteration preserves the invariant that a running
retransmission timer belongs to an occupied entry. -/
theorem ackStep_timer_inv (st : SendW) (hw1 : 1 ≤ st.win) (hw2 : st.win ≤ 32768)
    (hinv : ∀ i, st.timerOn i = true → (st.ents i).present = true) :
    ∀ i, (ackStep st).timerOn i = true → ((ackStep st).ents i).present = true := by
  intro i h
  rw [ackStep_eq st hw1 hw2] at h ⊢
  cases hp : (getEnt st st.unack).present <;>
    cases hq : seqGe st.unack st.per_end <;>
      simp only [hp, hq, Bool.false_eq_true, Bool.true_eq_false, if_false, if_true] at h ⊢ <;>
        (try exact hinv i h) <;>
          by_cases hi : i = entIdx st st.unack <;> simp [hi] at h ⊢ <;> exact hinv i h

/-- Frame of the iterated cumulative-ACK body: `unack` advances by the
iteration count and the other window coordinates are unchanged. -/
theorem iter_frame (n : Nat) : ∀ st : SendW, 1 ≤ st.win → st.win ≤ 32768 →
    (iterSteps n st).unack = st.unack + n ∧
    (iterSteps n st).maxSeq = st.maxSeq ∧ (iterSteps n st).win = st.win ∧
    (iterSteps n st).per_end = st.per_end ∧ (iterSteps n st).maxwin = st.maxwin ∧
    (iterSteps n st).perWrites = st.perWrites ∧ (iterSteps n st).seqn = st.seqn := by
  induction n with
  | zero => intro st _ _; exact ⟨rfl, rfl, rfl, rfl, rfl, rfl, rfl⟩
  | succ m ih =>
    intro st hw1 hw2
    have hf := ackStep_frame st hw1 hw2
    have ihs := ih (ackStep st) (by rw [hf.2.1]; exact hw1) (by rw [hf.2.1]; exact hw2)
    simp only [iterSteps]
    refine ⟨?_, ?_, ?_, ?_, ?_, ?_, ?_⟩
    · rw [ihs.1, ackStep_unack]; omega
    · rw [ihs.2.1, hf.1]
    · rw [ihs.2.2.1, hf.2.1]
    · rw [ihs.2.2.2.1, hf.2.2.1]
    · rw [ihs.2.2.2.2.1, hf.2.2.2.1]
    · rw [ihs.2.2.2.2.2.1, hf.2.2.2.2.1]
    · rw [ihs.2.2.2.2.2.2, hf.2.2.2.2.2]

/-- The iterated cumulative-ACK body never creates entries, never changes
timestamps and never starts timers. -/
theorem iter_mono (n : Nat) : ∀ st : SendW, 1 ≤ st.win → st.win ≤ 32768 →
    (∀ i, ((iterSteps n st).ents i).present = true → (st.ents i).present = true) ∧
    (∀ i, ((iterSteps n st).ents i).timestamp = (st.ents i).timestamp) ∧
    (∀ i, (iterSteps n st).timerOn i = true → st.timerOn i = true) := by
  induction n with
  | zero => intro st _ _; exact ⟨fun _ h => h, fun _ => rfl, fun _ h => h⟩
  | succ m ih =>
    intro st hw1 hw2
    have hf := ackStep_frame st hw1 hw2
    have ihs := ih (ackStep st) (by rw [hf.2.1]; exact hw1) (by rw [hf.2.1]; exact hw2)
    simp only [iterSteps]
    refine ⟨fun i h => ?_, fun i => ?_, fun i h => ?_⟩
    · exact ackStep_ents_mono st hw1 hw2 i (ihs.1 i h)
    · rw [ihs.2.1 i, ackStep_ents_ts st hw1 hw2 i]
    · exact ackStep_timer_mono st hw1 hw2 i (ihs.2.2 i h)

/-- The iterated cumulative-ACK body preserves the invariant that a
running timer belongs to an occupied entry. -/
theorem iter_timer_inv (n : Nat) : ∀ st : SendW, 1 ≤ st.win → st.win ≤ 32768 →
    (∀ i, st.timerOn i = true → (st.ents i).present = true) →
    ∀ i, (iterSteps n st).timerOn i = true → ((iterSteps n st).ents i).present = true := by
  induction n with
  | zero => intro st _ _ hinv; exact hinv
  | succ m ih =>
    intro st hw1 hw2 hinv
    have hf := ackStep_frame st hw1 hw2
    simp only [iterSteps]
    exact ih (ackStep st) (by rw [hf.2.1]; exact hw1) (by rw [hf.2.1]; exact hw2)
      (ackStep_timer_inv st hw1 hw2 hinv)

/-- Under the in-window side conditions, the fuel-bounded cumulative-ACK
loop performs exactly `n` iterations, where `n` is the distance from
`unack` to the stop value `eack` (with `eack` at most `max + 1`). -/
theorem ackLoopF_eq_iterSteps (e : Nat) : ∀ n fuel : Nat, ∀ st : SendW, n ≤ fuel →
    st.unack + n = e → e ≤ st.maxSeq + 1 → st.maxSeq ≤ st.unack + 32766 →
    1 ≤ st.win → st.win ≤ 32768 →
    ackLoopF e fuel st = iterSteps n st := by
  intro n
  induction n with
  | zero =>
    intro fuel st _ he _ _ _ _
    have hlt : seqLt st.unack e = false := by
      rw [← he]
      simpa using seqLt_self st.unack
    cases fuel with
    | zero => rfl
    | succ f =>
      rw [ackLoopF, hlt]
      rfl
  | succ m ih =>
    intro fuel st hfuel he hm hspan hw1 hw2
    cases fuel with
    | zero => omega
    | succ f =>
      have hlt : seqLt st.unack e = true := by
        rw [seqLt_iff (by omega) (by omega)]
        omega
      have hle : seqLe st.unack st.maxSeq = true := by
        rw [seqLe_iff (by omega) (by omega)]
        omega
      rw [ackLoopF, hlt, hle]
      simp only [Bool.and_self, if_true]
      have hf := ackStep_frame st hw1 hw2
      show ackLoopF e f (ackStep st) = iterSteps m (ackStep st)
      exact ih f (ackStep st) (by omega) (by rw [ackStep_unack]; omega)
        (by rw [hf.1]; omega) (by rw [hf.1, ackStep_unack]; omega)
        (by rw [hf.2.1]; exact hw1) (by rw [hf.2.1]; exact hw2)

/-- After iterating the cumulative-ACK body over `[unack, unack + n)`,
every entry in that range is released and (assuming running timers always
belong to occupied entries) its retransmission timer is cancelled. -/
theorem iter_released (n : Nat) : ∀ st : SendW, 1 ≤ st.win → st.win ≤ 32768 →
    (∀ i, st.timerOn i = true → (st.ents i).present = true) →
    ∀ s, st.unack ≤ s → s < st.unack + n →
      ((iterSteps n st).ents (entIdx st s)).present = false ∧
      (iterSteps n st).timerOn (entIdx st s) = false := by
  induction n with
  | zero => intro st _ _ _ s h1 h2; omega
  | succ m ih =>
    intro st hw1 hw2 hinv s h1 h2
    have hf := ackStep_frame st hw1 hw2
    have hw1s : 1 ≤ (ackStep st).win := by rw [hf.2.1]; exact hw1
    have hw2s : (ackStep st).win ≤ 32768 := by rw [hf.2.1]; exact hw2
    have hmaxwin : (ackStep st).maxwin = st.maxwin := hf.2.2.2.1
    have hidx : entIdx (ackStep st) s = entIdx st s := by
      unfold entIdx
      rw [hmaxwin]
    have hinv2 := ackStep_timer_inv st hw1 hw2 hinv
    simp only [iterSteps]
    by_cases hs : s = st.unack
    · subst hs
      -- the first iteration releases this entry (or it was already
      -- released); the remaining iterations never re-create it
      have hcleared : ((ackStep st).ents (entIdx st st.unack)).present = false ∧
          (ackStep st).timerOn (entIdx st st.unack) = false := by
        rw [ackStep_eq st hw1 hw2]
        cases hp : (getEnt st st.unack).present <;>
          cases hq : seqGe st.unack st.per_end <;>
            simp only [hp, hq, Bool.false_eq_true, Bool.true_eq_false, if_false, if_true] <;>
              constructor <;>
                first
                  | simp
                  | (unfold getEnt at hp
                     exact hp)
                  | (cases ht : st.timerOn (entIdx st st.unack)
                     · rfl
                     · exact absurd (hinv _ ht) (by unfold getEnt at hp; simp [hp]))
      constructor
      · cases hpe : ((iterSteps m (ackStep st)).ents (entIdx st st.unack)).present
        · rfl
        · have := (iter_mono m (ackStep st) hw1s hw2s).1 (entIdx st st.unack) hpe
          rw [this] at hcleared
          exact absurd hcleared.1 (by simp)
      · cases hte : (iterSteps m (ackStep st)).timerOn (entIdx st st.unack)
        · rfl
        · have := (iter_mono m (ackStep st) hw1s hw2s).2.2 (entIdx st st.unack) hte
          rw [this] at hcleared
          exact absurd hcleared.2 (by simp)
    · have h1s : (ackStep st).unack ≤ s := by rw [ackStep_unack]; omega
      have h2s : s < (ackStep st).unack + m := by rw [ackStep_unack]; omega
      have := ih (ackStep st) hw1s hw2s hinv2 s h1s h2s
      rw [hidx] at this
      exact this

/-- Success counting of one cumulative-ACK iteration. -/
theorem ackStep_nTx (st : SendW) (hw1 : 1 ≤ st.win) (hw2 : st.win ≤ 32768) :
    (ackStep st).nTxSuccess =
      st.nTxSuccess + (if seqGe st.unack st.per_end = true then 1 else 0) := by
  rw [ackStep_eq st hw1 hw2]
  cases hp : (getEnt st st.unack).present <;>
    cases hq : seqGe st.unack st.per_end <;>
      simp [hp, hq]

/-- ACK-delay recording of one cumulative-ACK iteration. -/
theorem ackStep_ackRecords (st : SendW) (hw1 : 1 ≤ st.win) (hw2 : st.win ≤ 32768) :
    (ackStep st).ackRecords =
      st.ackRecords ++
        (if (getEnt st st.unack).present then [(getEnt st st.unack).timestamp] else []) := by
  rw [ackStep_eq st hw1 hw2]
  cases hp : (getEnt st st.unack).present <;>
    cases hq : seqGe st.unack st.per_end <;>
      simp [hp, hq]

/-- One cumulative-ACK iteration only touches the entry slot of the
cursor. -/
theorem ackStep_ents_ne (st : SendW) (hw1 : 1 ≤ st.win) (hw2 : st.win ≤ 32768) (i : Nat)
    (hi : i ≠ entIdx st st.unack) : (ackStep st).ents i = st.ents i := by
  rw [ackStep_eq st hw1 hw2]
  cases hp : (getEnt st st.unack).present <;>
    cases hq : seqGe st.unack st.per_end <;>
      simp [hp, hq, hi]

/-- After iterating the cumulative-ACK body over `[unack, unack + n)`,
the success counter has increased by the number of cursors at or past
`per_end`. -/
theorem iter_success (n : Nat) : ∀ st : SendW, 1 ≤ st.win → st.win ≤ 32768 →
    st.per_end ≤ st.unack + 32767 → st.unack + n ≤ st.per_end + 32768 →
    (iterSteps n st).nTxSuccess =
      st.nTxSuccess + ((List.range' st.unack n).filter (fun s => st.per_end ≤ s)).length := by
  induction n with
  | zero => intro st _ _ _ _; simp [iterSteps]
  | succ m ih =>
    intro st hw1 hw2 hp1 hp2
    have hf := ackStep_frame st hw1 hw2
    have hge : seqGe st.unack st.per_end = decide (st.per_end ≤ st.unack) := by
      by_cases hle : st.per_end ≤ st.unack
      · rw [(seqGe_iff (by omega) (by omega)).mpr hle]
        simp [hle]
      · cases hb : seqGe st.unack st.per_end
        · simp [hle]
        · exact absurd ((seqGe_iff (by omega) (by omega)).mp hb) hle
    have ihs := ih (ackStep st) (by rw [hf.2.1]; exact hw1) (by rw [hf.2.1]; exact hw2)
      (by rw [hf.2.2.1, ackStep_unack]; omega) (by rw [hf.2.2.1, ackStep_unack]; omega)
    simp only [iterSteps]
    rw [ihs, ackStep_nTx st hw1 hw2, hf.2.2.1, ackStep_unack, List.range'_succ,
        List.filter_cons]
    by_cases hle : st.per_end ≤ st.unack <;>
      simp [hle, hge]
    omega

/-- After iterating the cumulative-ACK body over `[unack, unack + n)`,
provided the entry slots of the range are distinct, the recorded ACK
delays are exactly the timestamps of the entries of the range that were
present, in range order. -/
theorem iter_ackRecords (n : Nat) : ∀ st : SendW, 1 ≤ st.win → st.win ≤ 32768 →
    (∀ s1 s2, st.unack ≤ s1 → s1 < st.unack + n → st.unack ≤ s2 → s2 < st.unack + n →
      entIdx st s1 = entIdx st s2 → s1 = s2) →
    (iterSteps n st).ackRecords =
      st.ackRecords ++
        ((List.range' st.unack n).filter (fun s => (getEnt st s).present)).map
          (fun s => (getEnt st s).timestamp) := by
  induction n with
  | zero => intro st _ _ _; simp [iterSteps]
  | succ m ih =>
    intro st hw1 hw2 hinj
    have hf := ackStep_frame st hw1 hw2
    have hidx : ∀ s, entIdx (ackStep st) s = entIdx st s := by
      intro s
      unfold entIdx
      rw [hf.2.2.2.1]
    have hgets : ∀ s, st.unack + 1 ≤ s → s < st.unack + (m + 1) →
        getEnt (ackStep st) s = getEnt st s := by
      intro s h1 h2
      unfold getEnt
      rw [hidx]
      apply ackStep_ents_ne st hw1 hw2
      intro he
      have := hinj s st.unack (by omega) (by omega) (by omega) (by omega) he
      omega
    have ihs := ih (ackStep st) (by rw [hf.2.1]; exact hw1) (by rw [hf.2.1]; exact hw2)
      (by
        intro s1 s2 hs1 hs1b hs2 hs2b heq
        rw [ackStep_unack] at hs1 hs1b hs2 hs2b
        rw [hidx, hidx] at heq
        exact hinj s1 s2 (by omega) (by omega) (by omega) (by omega) heq)
    simp only [iterSteps]
    rw [ihs, ackStep_ackRecords st hw1 hw2, ackStep_unack]
    have hfilter : (List.range' (st.unack + 1) m).filter
          (fun s => (getEnt (ackStep st) s).present)
        = (List.range' (st.unack + 1) m).filter (fun s => (getEnt st s).present) := by
      apply List.filter_congr
      intro s hs
      rw [List.mem_range'_1] at hs
      rw [hgets s (by omega) (by omega)]
    have hmap : ∀ l : List Nat, (∀ s ∈ l, st.unack + 1 ≤ s ∧ s < st.unack + (m + 1)) →
        l.map (fun s => (getEnt (ackStep st) s).timestamp)
          = l.map (fun s => (getEnt st s).timestamp) := by
      intro l hl
      apply List.map_congr_left
      intro s hs
      rw [hgets s (hl s hs).1 (hl s hs).2]
    rw [hfilter, hmap _ (by
      intro s hs
      have := List.mem_range'_1.mp (List.mem_of_mem_filter hs)
      omega)]
    rw [List.range'_succ, List.filter_cons, List.append_assoc]
    by_cases hp : (getEnt st st.unack).present <;> simp [hp]

/-- C2 (amended): when `received` processes a unicast packet with the ACK
flag set and payload ACK field `eack` strictly greater than `unack`, and
`eack` lies at most one past `max` (the code guards the loop with
`unack <= max`, so a wire value beyond `max + 1` stops there instead, see
the counterexample), then every sequence in `[unack, eack)` has its
send-window entry released and its retransmission timer cancelled, the
ACK delay estimator is updated exactly for the entries still present,
every such sequence at or past `per_end` is scored as a TX success,
afterwards `unack` equals the old `eack`, and `per_end` becomes the
maximum of its old value and the old `eack`. -/
theorem received_cumulative_ack (st : SendW) (e : Nat)
    (hwin1 : 1 ≤ st.win) (hwin2 : st.win ≤ 32768)
    (hlt : st.unack < e) (hle : e ≤ st.maxSeq + 1)
    (hspan : st.maxSeq ≤ st.unack + 32766)
    (hpe1 : st.unack ≤ st.per_end) (hpe2 : st.per_end ≤ st.maxSeq + 1)
    (htimer : ∀ i, st.timerOn i = true → (st.ents i).present = true)
    (hinj : ∀ s1 s2, st.unack ≤ s1 → s1 < e → st.unack ≤ s2 → s2 < e →
      entIdx st s1 = entIdx st s2 → s1 = s2) :
    (recvAckFrag st e).unack = e ∧
    (∀ s, st.unack ≤ s → s < e →
      ((recvAckFrag st e).ents (entIdx st s)).present = false ∧
      (recvAckFrag st e).timerOn (entIdx st s) = false) ∧
    (recvAckFrag st e).ackRecords =
      st.ackRecords ++
        ((List.range' st.unack (e - st.unack)).filter (fun s => (getEnt st s).present)).map
          (fun s => (getEnt st s).timestamp) ∧
    (recvAckFrag st e).nTxSuccess =
      st.nTxSuccess +
        ((List.range' st.unack (e - st.unack)).filter (fun s => st.per_end ≤ s)).length ∧
    (recvAckFrag st e).per_end = max st.per_end e := by
  have hgt : seqGt e st.unack = true := (seqGt_iff (by omega) (by omega)).mpr hlt
  have heq : ackLoopF e 65536 st = iterSteps (e - st.unack) st :=
    ackLoopF_eq_iterSteps e (e - st.unack) 65536 st (by omega) (by omega) hle hspan hwin1 hwin2
  have hframe := iter_frame (e - st.unack) st hwin1 hwin2
  have hu1 : (iterSteps (e - st.unack) st).unack = e := by rw [hframe.1]; omega
  have hp1 : (iterSteps (e - st.unack) st).per_end = st.per_end := hframe.2.2.2.1
  have hrw : recvAckFrag st e =
      (if seqGt (iterSteps (e - st.unack) st).unack (iterSteps (e - st.unack) st).per_end then
        writePerEnd (iterSteps (e - st.unack) st) (iterSteps (e - st.unack) st).unack
      else iterSteps (e - st.unack) st) := by
    unfold recvAckFrag
    rw [hgt, heq]
    rfl
  have hrel := iter_released (e - st.unack) st hwin1 hwin2 htimer
  have hrec := iter_ackRecords (e - st.unack) st hwin1 hwin2
    (by
      intro s1 s2 a b c d
      exact hinj s1 s2 a (by omega) c (by omega))
  have hsuc := iter_success (e - st.unack) st hwin1 hwin2 (by omega) (by omega)
  by_cases hcase : st.per_end < e
  · have hgt2 : seqGt (iterSteps (e - st.unack) st).unack
        (iterSteps (e - st.unack) st).per_end = true := by
      rw [hu1, hp1]
      exact (seqGt_iff (by omega) (by omega)).mpr hcase
    rw [hrw, hgt2]
    simp only [if_true]
    unfold writePerEnd
    refine ⟨hu1, ?_, ?_, ?_, ?_⟩
    · intro s h1 h2
      exact hrel s h1 (by omega)
    · exact hrec
    · exact hsuc
    · show (iterSteps (e - st.unack) st).unack = max st.per_end e
      rw [hu1]
      omega
  · have hgt2 : seqGt (iterSteps (e - st.unack) st).unack
        (iterSteps (e - st.unack) st).per_end = false := by
      rw [hu1, hp1]
      cases hb : seqGt e st.per_end
      · rfl
      · exact absurd ((seqGt_iff (by omega) (by omega)).mp hb) hcase
    rw [hrw, hgt2]
    simp only [Bool.false_eq_true, if_false]
    refine ⟨hu1, ?_, ?_, ?_, ?_⟩
    · intro s h1 h2
      exact hrel s h1 (by omega)
    · exact hrec
    · exact hsuc
    · rw [hp1]
      omega

/-- A concrete one-packet send window: sequence 0 is in flight,
`unack = max = per_end = 0`, `seq = 1`, `win = maxwin = 1`. -/
def c2State : SendW :=
  { unack := 0, maxSeq := 0, seqn := 1, per_end := 0, win := 1, maxwin := 1,
    ents := fun _ => { present := true, timestamp := 0 },
    timerOn := fun _ => false,
    ackRecords := [], nTxSuccess := 0, nTxFailure := 0, retransQueue := [],
    perWrites := [0], queueOpen := true, locally_updated := false, new_window := false }

/-- C2 counterexample: with `max = 0` and the wire value `eack = 5`
(which satisfies the trigger `eack > unack`), the cumulative-ACK loop of
`received` stops at `max + 1 = 1`, so afterwards `unack` is 1 and not the
old `eack` — refuting the claim for arbitrary wire values of `eack`. -/
theorem received_cumulative_ack_counterexample :
    seqGt 5 c2State.unack = true ∧
    (recvAckFrag c2State 5).unack = 1 ∧
    ¬ (recvAckFrag c2State 5).unack = 5 := by
  refine ⟨by decide, by decide, by decide⟩

/-- Witness for C2 at a concrete input: the window `c2State` with
`eack = 1`. -/
theorem received_cumulative_ack_witness :
    (recvAckFrag c2State 1).unack = 1 ∧
    (recvAckFrag c2State 1).per_end = max c2State.per_end 1 := by
  have h := received_cumulative_ack c2State 1 (by decide) (by decide) (by decide)
    (by decide) (by decide) (by decide) (by decide)
    (by intro i hti; simp [c2State] at hti)
    (by intro s1 s2 a b c d _; omega)
  exact ⟨h.1, h.2.2.2.2⟩

/-! ## C3: monotonicity of `per_end` over interleaved controller events -/

/-- The write log of `per_end` is well-formed: non-empty (it is seeded
with the initial value), every consecutive pair of writes is
non-decreasing in `Seq` order, and the last write is the current value. -/
def goodTrace (st : SendW) : Prop :=
  st.perWrites ≠ [] ∧ List.Chain' SLe st.perWrites ∧
    st.perWrites.getLast? = some st.per_end

/-- A state change that leaves `per_end` and its write log untouched
preserves a well-formed trace. -/
theorem goodTrace_eq {st st' : SendW} (h : goodTrace st)
    (hp : st'.per_end = st.per_end) (hw : st'.perWrites = st.perWrites) :
    goodTrace st' := by
  refine ⟨?_, ?_, ?_⟩
  · rw [hw]; exact h.1
  · rw [hw]; exact h.2.1
  · rw [hw, hp]; exact h.2.2

/-- A write that moves `per_end` forward in `Seq` order preserves a
well-formed trace. -/
theorem goodTrace_write {st : SendW} {v : Nat} (h : goodTrace st)
    (hle : SLe st.per_end v) : goodTrace (writePerEnd st v) := by
  refine ⟨by simp [writePerEnd], ?_, ?_⟩
  · show List.Chain' SLe (st.perWrites ++ [v])
    rw [List.chain'_append]
    refine ⟨h.2.1, List.chain'_singleton v, ?_⟩
    intro x hx y hy
    rw [Option.mem_def] at hx hy
    rw [h.2.2] at hx
    simp only [Option.some.injEq] at hx
    simp only [List.head?_cons, Option.some.injEq] at hy
    rw [hx, hy] at hle
    exact hle
  · show (st.perWrites ++ [v]).getLast? = some v
    exact List.getLast?_concat _

/-- `handleACK` never writes `per_end`. -/
theorem handleACK_perW (st : SendW) (s : Nat) :
    (handleACK st s).per_end = st.per_end ∧ (handleACK st s).perWrites = st.perWrites := by
  unfold handleACK setTimer setEnt
  split
  · exact ⟨rfl, rfl⟩
  · split
    · exact ⟨rfl, rfl⟩
    · exact ⟨rfl, rfl⟩

/-- `startRetransTimer` never writes `per_end`. -/
theorem startRetransTimer_perW (st : SendW) (s : Nat) :
    (startRetransTimer st s).per_end = st.per_end ∧
    (startRetransTimer st s).perWrites = st.perWrites := by
  unfold startRetransTimer setTimer
  split
  · exact ⟨rfl, rfl⟩
  · exact ⟨rfl, rfl⟩

/-- `retransmit` never writes `per_end`. -/
theorem retransmitEnt_perW (cfg : Cfg) (st : SendW) (s : Nat) :
    (retransmitEnt cfg st s).per_end = st.per_end ∧
    (retransmitEnt cfg st s).perWrites = st.perWrites := by
  unfold retransmitEnt
  split
  · have h1 := startRetransTimer_perW (setTimer st s false) s
    have h2 : (setTimer st s false).per_end = st.per_end ∧
        (setTimer st s false).perWrites = st.perWrites := ⟨rfl, rfl⟩
    exact ⟨h1.1.trans h2.1, h1.2.trans h2.2⟩
  · split
    · exact ⟨rfl, rfl⟩
    · split
      · split
        · exact ⟨rfl, rfl⟩
        · exact ⟨rfl, rfl⟩
      · have h1 := startRetransTimer_perW (setTimer st s false) s
        exact ⟨h1.1, h1.2⟩

/-- The advance loop never writes `per_end`. -/
theorem advLoopF_perW (fuel : Nat) : ∀ st : SendW,
    (advLoopF fuel st).per_end = st.per_end ∧
    (advLoopF fuel st).perWrites = st.perWrites := by
  induction fuel with
  | zero => intro st; exact ⟨rfl, rfl⟩
  | succ n ih =>
    intro st
    rw [advLoopF]
    split
    · exact ⟨(ih _).1, (ih _).2⟩
    · exact ⟨rfl, rfl⟩

/-- `advanceSendWindow` never writes `per_end`. -/
theorem advanceSendWindow_perW (st : SendW) :
    (advanceSendWindow st).per_end = st.per_end ∧
    (advanceSendWindow st).perWrites = st.perWrites := by
  unfold advanceSendWindow
  have h := advLoopF_perW 65536 st
  dsimp only
  split
  · exact ⟨h.1, h.2⟩
  · exact ⟨h.1, h.2⟩

/-- `drop` never writes `per_end`. -/
theorem dropEnt_perW (st : SendW) (s : Nat) :
    (dropEnt st s).per_end = st.per_end ∧ (dropEnt st s).perWrites = st.perWrites := by
  unfold dropEnt
  split
  · exact ⟨rfl, rfl⟩
  · have h := advanceSendWindow_perW (setEnt (setTimer st s false) s
      { present := false, timestamp := (getEnt st s).timestamp })
    dsimp only
    split
    · exact ⟨h.1, h.2⟩
    · exact ⟨h.1, h.2⟩

/-- The pull-side store never writes `per_end`. -/
theorem pullStage_perW (now : Nat) (st : SendW) (p : InPkt) (q : InPkt) (st' : SendW)
    (h : pullStage now st p = some (q, st')) :
    st'.per_end = st.per_end ∧ st'.perWrites = st.perWrites := by
  unfold pullStage at h
  split at h
  · exact absurd h (by simp)
  · split at h
    · exact absurd h (by simp)
    · dsimp only at h
      split at h <;> split at h <;> split at h <;>
        · simp only [Option.some.injEq, Prod.mk.injEq] at h
          rw [← h.2]
          exact ⟨rfl, rfl⟩

/-- The sequence-assignment stage never writes `per_end`. -/
theorem assignSeq_perW (cfg : Cfg) (f : Nat → Bool) (st : SendW) (p : InPkt) :
    (assignSeq cfg f st p).2.per_end = st.per_end ∧
    (assignSeq cfg f st p).2.perWrites = st.perWrites := by
  unfold assignSeq
  have h1 := dropEnt_perW st st.unack
  split
  · dsimp only
    split <;> split <;> exact ⟨h1.1, h1.2⟩
  · dsimp only
    split <;> split <;> exact ⟨rfl, rfl⟩

/-- One step of the pull loop never writes `per_end`. -/
theorem pullOne_perW (cfg : Cfg) (f : Nat → Bool) (now : Nat) (st : SendW) (p : InPkt) :
    (∀ q st', pullOne cfg f now st p = .inl (some (q, st')) →
      st'.per_end = st.per_end ∧ st'.perWrites = st.perWrites) ∧
    (∀ st', pullOne cfg f now st p = .inr st' →
      st'.per_end = st.per_end ∧ st'.perWrites = st.perWrites) := by
  have ha := assignSeq_perW cfg f st p
  have hd := dropEnt_perW st p.seq
  unfold pullOne
  constructor
  · intro q st' h
    split at h
    · simp only [Sum.inl.injEq, Option.some.injEq, Prod.mk.injEq] at h
      rw [← h.2]
      exact ⟨rfl, rfl⟩
    · split at h
      · simp only [Sum.inl.injEq, Option.some.injEq, Prod.mk.injEq] at h
        rw [← h.2]
        exact ⟨rfl, rfl⟩
      · split at h
        · dsimp only at h
          split at h
          · rename_i r hsome
            simp only [Sum.inl.injEq, Option.some.injEq] at h
            rw [h] at hsome
            have hs := pullStage_perW _ _ _ _ _ hsome
            exact ⟨hs.1.trans ha.1, hs.2.trans ha.2⟩
          · exact Sum.noConfusion h
        · split at h
          · exact Sum.noConfusion h
          · split at h
            · exact Sum.noConfusion h
            · split at h
              · exact Sum.noConfusion h
              · split at h
                · rename_i r hsome
                  simp only [Sum.inl.injEq, Option.some.injEq] at h
                  rw [h] at hsome
                  exact pullStage_perW _ _ _ _ _ hsome
                · exact Sum.noConfusion h
  · intro st' h
    split at h
    · exact Sum.noConfusion h
    · split at h
      · exact Sum.noConfusion h
      · split at h
        · dsimp only at h
          split at h
          · exact Sum.noConfusion h
          · simp only [Sum.inr.injEq] at h
            rw [← h]
            exact ⟨ha.1, ha.2⟩
        · split at h
          · simp only [Sum.inr.injEq] at h
            rw [← h]
            exact ⟨rfl, rfl⟩
          · split at h
            · simp only [Sum.inr.injEq] at h
              rw [← h]
              exact ⟨rfl, rfl⟩
            · split at h
              · simp only [Sum.inr.injEq] at h
                rw [← h]
                exact ⟨hd.1, hd.2⟩
              · split at h
                · exact Sum.noConfusion h
                · simp only [Sum.inr.injEq] at h
                  rw [← h]
                  exact ⟨rfl, rfl⟩

/-- The pull loop never writes `per_end`. -/
theorem pullM_perW (cfg : Cfg) (f : Nat → Bool) (now : Nat) :
    ∀ (inputs : List InPkt) (st : SendW) (q : InPkt) (st' : SendW),
    pullM cfg f now st inputs = some (q, st') →
    st'.per_end = st.per_end ∧ st'.perWrites = st.perWrites := by
  intro inputs
  induction inputs with
  | nil =>
    intro st q st' h
    exact Option.noConfusion h
  | cons p rest ih =>
    intro st q st' h
    rw [pullM] at h
    split at h
    · rename_i r hone
      rw [h] at hone
      exact (pullOne_perW cfg f now st p).1 q st' hone
    · rename_i st2 hone
      have h1 := (pullOne_perW cfg f now st p).2 st2 hone
      have h2 := ih st2 q st' h
      exact ⟨h2.1.trans h1.1, h2.2.trans h1.2⟩

/-- One cumulative-ACK iteration never writes `per_end` (the `per_end`
update of the `received` fragment happens after the loop). -/
theorem ackStep_perW (st : SendW) :
    (ackStep st).per_end = st.per_end ∧ (ackStep st).perWrites = st.perWrites := by
  unfold ackStep
  have h := handleACK_perW st st.unack
  dsimp only
  split
  · exact ⟨h.1, h.2⟩
  · exact ⟨h.1, h.2⟩

/-- The cumulative-ACK loop never writes `per_end`. -/
theorem ackLoopF_perW (e : Nat) (fuel : Nat) : ∀ st : SendW,
    (ackLoopF e fuel st).per_end = st.per_end ∧
    (ackLoopF e fuel st).perWrites = st.perWrites := by
  induction fuel with
  | zero => intro st; exact ⟨rfl, rfl⟩
  | succ n ih =>
    intro st
    rw [ackLoopF]
    split
    · have h1 := ih (ackStep st)
      have h2 := ackStep_perW st
      exact ⟨h1.1.trans h2.1, h1.2.trans h2.2⟩
    · exact ⟨rfl, rfl⟩

/-- The cumulative-ACK fragment of `received` only moves `per_end`
forward in `Seq` order. -/
theorem recvAckFrag_good (st : SendW) (e : Nat) (h : goodTrace st) :
    goodTrace (recvAckFrag st e) := by
  unfold recvAckFrag
  split
  · dsimp only
    have hfr := ackLoopF_perW e 65536 st
    have hg1 : goodTrace (ackLoopF e 65536 st) := goodTrace_eq h hfr.1 hfr.2
    split
    · rename_i hc
      exact goodTrace_write hg1 (sle_of_seqGt hc)
    · exact hg1
  · exact h

/-- The gap (selective-NAK) body only moves `per_end` forward in `Seq`
order. -/
theorem gapStep_good (cfg : Cfg) (tfb : Nat) (st : SendW) (s : Nat) (h : goodTrace st) :
    goodTrace (gapStep cfg tfb st s) := by
  unfold gapStep
  split
  · rename_i hge
    split
    · split
      · dsimp only
        have h1 := retransmitEnt_perW cfg (txFail st) s
        have hg2 : goodTrace (retransmitEnt cfg (txFail st) s) :=
          goodTrace_eq h (h1.1.trans rfl) (h1.2.trans rfl)
        apply goodTrace_write hg2
        show SLe (retransmitEnt cfg (txFail st) s).per_end (s + 1)
        rw [h1.1]
        show SLe st.per_end (s + 1)
        exact sle_succ_of_seqGe hge
      · exact h
    · exact goodTrace_write h (sle_succ_of_seqGe hge)
  · exact h

/-- The gap loop only moves `per_end` forward in `Seq` order. -/
theorem gapLoopF_good (cfg : Cfg) (tfb b : Nat) (fuel : Nat) : ∀ (s : Nat) (st : SendW),
    goodTrace st → goodTrace (gapLoopF cfg tfb b fuel s st) := by
  induction fuel with
  | zero => intro s st h; exact h
  | succ n ih =>
    intro s st h
    rw [gapLoopF]
    split
    · exact ih (s + 1) _ (gapStep_good cfg tfb st s h)
    · exact h

/-- The ACK-run body only moves `per_end` forward in `Seq` order. -/
theorem runStep_good (tfb : Nat) (st : SendW) (s : Nat) (h : goodTrace st) :
    goodTrace (runStep tfb st s) := by
  unfold runStep
  dsimp only
  split
  · have hframe := handleACK_perW st s
    have hg1 : goodTrace (handleACK st s) := goodTrace_eq h hframe.1 hframe.2
    split
    · rename_i hc
      rw [Bool.and_eq_true] at hc
      apply goodTrace_write (goodTrace_eq hg1 rfl rfl)
      show SLe (handleACK st s).per_end (s + 1)
      exact sle_succ_of_seqGe hc.1
    · exact hg1
  · split
    · rename_i hc
      rw [Bool.and_eq_true] at hc
      apply goodTrace_write (goodTrace_eq h rfl rfl)
      show SLe st.per_end (s + 1)
      exact sle_succ_of_seqGe hc.1
    · exact h

/-- The ACK-run loop only moves `per_end` forward in `Seq` order. -/
theorem runLoopF_good (tfb en : Nat) (fuel : Nat) : ∀ (s : Nat) (st : SendW),
    goodTrace st → goodTrace (runLoopF tfb en fuel s st) := by
  induction fuel with
  | zero => intro s st h; exact h
  | succ n ih =>
    intro s st h
    rw [runLoopF]
    split
    · exact ih (s + 1) _ (runStep_good tfb st s h)
    · exact h

/-- `handleSelectiveACK` only moves `per_end` forward in `Seq` order. -/
theorem handleSelectiveACKm_good (cfg : Cfg) (tfb : Nat) (st : SendW)
    (ranges : List (Nat × Nat)) (h : goodTrace st) :
    goodTrace (handleSelectiveACKm cfg tfb st ranges) := by
  unfold handleSelectiveACKm
  suffices hgen : ∀ (rs : List (Nat × Nat)) (acc : SendW × Nat), goodTrace acc.1 →
      goodTrace (rs.foldl (sackRange cfg tfb) acc).1 by
    exact hgen ranges (st, st.unack) h
  intro rs
  induction rs with
  | nil => intro acc hacc; exact hacc
  | cons r rest ih =>
    intro acc hacc
    rw [List.foldl_cons]
    apply ih
    show goodTrace (sackRange cfg tfb acc r).1
    unfold sackRange
    dsimp only
    apply runLoopF_good
    split
    · exact gapLoopF_good cfg tfb r.1 65536 acc.2 acc.1 hacc
    · exact hacc

/-- Well-formedness condition on a run of controller events: whenever a
`setMCS` event fires, `per_end` does not exceed the next sequence number
`seq` in `Seq` order.  This holds in particular whenever all selective-ACK
feedback received so far stayed within the sent window. -/
def okRun (cfg : Cfg) : SendW → List ArqEv → Prop
  | _, [] => True
  | st, e :: rest =>
    (e = ArqEv.setMCS → SLe st.per_end st.seqn) ∧ okRun cfg (arqStep cfg st e) rest

/-- One controller event preserves the monotone `per_end` write log,
provided a `setMCS` event only fires when `per_end` has not been pushed
past `seq`. -/
theorem arqStep_good (cfg : Cfg) (st : SendW) (ev : ArqEv) (h : goodTrace st)
    (hmcs : ev = ArqEv.setMCS → SLe st.per_end st.seqn) :
    goodTrace (arqStep cfg st ev) := by
  cases ev with
  | pull f now inputs =>
    show goodTrace (match pullM cfg f now st inputs with
      | some r => r.2
      | none => st)
    split
    · rename_i r hr
      have hw := pullM_perW cfg f now inputs st r.1 r.2 hr
      exact goodTrace_eq h hw.1 hw.2
    · exact h
  | transmitted s =>
    have hw := startRetransTimer_perW st s
    exact goodTrace_eq h hw.1 hw.2
  | recvAck e =>
    have hg1 := recvAckFrag_good st e h
    have hw := advanceSendWindow_perW (recvAckFrag st e)
    exact goodTrace_eq hg1 hw.1 hw.2
  | recvSack tfb rs => exact handleSelectiveACKm_good cfg tfb st rs h
  | setMCS => exact goodTrace_write h (hmcs rfl)

/-- C3 (amended): across every interleaved sequence of `pull`,
`transmitted` and `received` events (cumulative-ACK, selective-ACK) and
MCS changes through `setMCS`, the log of values written to `per_end` is
non-decreasing in `Seq` order — provided each `setMCS` event fires in a
state where `per_end` has not been pushed past `seq` by malformed
selective-ACK feedback.  In absence of the proviso the claim fails, see
the counterexample. -/
theorem per_end_monotone (cfg : Cfg) (evs : List ArqEv) : ∀ st : SendW,
    goodTrace st → okRun cfg st evs →
    List.Chain' SLe ((runEvs cfg st evs).perWrites) ∧
    (runEvs cfg st evs).perWrites.getLast? = some (runEvs cfg st evs).per_end := by
  induction evs with
  | nil =>
    intro st h _
    exact ⟨h.2.1, h.2.2⟩
  | cons e rest ih =>
    intro st h hok
    show List.Chain' SLe ((runEvs cfg (arqStep cfg st e) rest).perWrites) ∧ _
    exact ih (arqStep cfg st e) (arqStep_good cfg st e h hok.1) hok.2

/-- A fresh, empty send window with `maxwin = 1`. -/
def c3State : SendW :=
  { unack := 0, maxSeq := 0, seqn := 0, per_end := 0, win := 1, maxwin := 1,
    ents := fun _ => { present := false, timestamp := 0 },
    timerOn := fun _ => false,
    ackRecords := [], nTxSuccess := 0, nTxFailure := 0, retransQueue := [],
    perWrites := [0], queueOpen := true, locally_updated := false, new_window := true }

/-- C3 counterexample: a received packet carrying the malformed selective
ACK `SelectiveAck(2, 3)` (beyond anything the window ever sent) pushes
`per_end` up to 3, after which a `setMCS` event writes
`per_end := seq = 0` — a strictly decreasing write in `Seq` order.  The
`per_end` write log of this two-event run is not monotone, refuting the
claim over arbitrary interleavings of events. -/
theorem per_end_monotone_counterexample :
    ¬ List.Chain' SLe
      ((runEvs ⟨true, true, true, true⟩ c3State
        [ArqEv.recvSack 1 [(2, 3)], ArqEv.setMCS]).perWrites) := by
  intro hchain
  have hw : (runEvs ⟨true, true, true, true⟩ c3State
      [ArqEv.recvSack 1 [(2, 3)], ArqEv.setMCS]).perWrites = [0, 1, 2, 3, 0] := by
    decide
  rw [hw, List.chain'_cons, List.chain'_cons, List.chain'_cons, List.chain'_cons] at hchain
  exact absurd hchain.2.2.2.1 (by decide)

/-- Witness for C3 at a concrete input: the fresh window `c3State` with a
single well-formed `setMCS` event. -/
theorem per_end_monotone_witness :
    List.Chain' SLe ((runEvs ⟨true, true, true, true⟩ c3State [ArqEv.setMCS]).perWrites) := by
  have h := per_end_monotone ⟨true, true, true, true⟩ [ArqEv.setMCS] c3State
    ⟨by decide, List.chain'_singleton 0, by decide⟩
    ⟨fun _ => by decide, trivial⟩
  exact h.1

/-! ## C4: packets returned by `pull` lie inside the send window -/

/-- The pull-side window check: a packet stored and returned by the final
stage of `pull` satisfies both window comparisons of the source
(`!(seq < unack)` and `!(seq >= unack + win)`) in the state at return. -/
theorem pullStage_window (now : Nat) (st : SendW) (p : InPkt) (q : InPkt) (st' : SendW)
    (h : pullStage now st p = some (q, st')) :
    seqLt q.seq st'.unack = false ∧ seqGe q.seq (st'.unack + st'.win) = false := by
  unfold pullStage at h
  split at h
  · exact Option.noConfusion h
  · split at h
    · exact Option.noConfusion h
    · rename_i hg1 hg2
      have hg2f : (seqLt p.seq st.unack || seqGe p.seq (st.unack + st.win)) = false :=
        Bool.eq_false_iff.mpr hg2
      rw [Bool.or_eq_false_iff] at hg2f
      obtain ⟨hg2a, hg2b⟩ := hg2f
      dsimp only at h
      split at h <;> split at h <;> split at h <;>
        (simp only [Option.some.injEq, Prod.mk.injEq] at h
         rw [← h.1, ← h.2]
         exact ⟨hg2a, hg2b⟩)

/-- One pull step returns only data packets that pass the window check. -/
theorem pullOne_window (cfg : Cfg) (f : Nat → Bool) (now : Nat) (st : SendW) (p : InPkt)
    (q : InPkt) (st' : SendW)
    (h : pullOne cfg f now st p = .inl (some (q, st')))
    (hb : q.broadcast = false) (hd : q.dataLen ≠ 0) :
    seqLt q.seq st'.unack = false ∧ seqGe q.seq (st'.unack + st'.win) = false := by
  unfold pullOne at h
  split at h
  · rename_i hbt
    simp only [Sum.inl.injEq, Option.some.injEq, Prod.mk.injEq] at h
    rw [← h.1] at hb
    rw [hb] at hbt
    exact Bool.noConfusion hbt
  · split at h
    · rename_i hdz
      simp only [Sum.inl.injEq, Option.some.injEq, Prod.mk.injEq] at h
      rw [← h.1] at hd
      exact absurd (by simpa using hdz) hd
    · split at h
      · dsimp only at h
        split at h
        · rename_i r hsome
          simp only [Sum.inl.injEq, Option.some.injEq] at h
          rw [h] at hsome
          exact pullStage_window _ _ _ _ _ hsome
        · exact Sum.noConfusion h
      · split at h
        · exact Sum.noConfusion h
        · split at h
          · exact Sum.noConfusion h
          · split at h
            · exact Sum.noConfusion h
            · split at h
              · rename_i r hsome
                simp only [Sum.inl.injEq, Option.some.injEq] at h
                rw [h] at hsome
                exact pullStage_window _ _ _ _ _ hsome
              · exact Sum.noConfusion h

/-- C4: every data-bearing, non-broadcast packet returned by the
`pull` / `getPacket` loop satisfies `unack <= seq < unack + win` (in the
comparisons of the source) for the send-window state at the moment of
return: packets before the window are silently dropped and the loop
retries, packets at or beyond `unack + win` are dropped as invariant
violations and the loop retries, and neither is ever returned. -/
theorem pull_returns_in_window (cfg : Cfg) (f : Nat → Bool) (now : Nat) :
    ∀ (inputs : List InPkt) (st : SendW) (p : InPkt) (st' : SendW),
    pullM cfg f now st inputs = some (p, st') →
    p.broadcast = false → p.dataLen ≠ 0 →
    seqLt p.seq st'.unack = false ∧ seqGe p.seq (st'.unack + st'.win) = false := by
  intro inputs
  induction inputs with
  | nil =>
    intro st p st' h _ _
    exact Option.noConfusion h
  | cons q rest ih =>
    intro st p st' h hb hd
    rw [pullM] at h
    split at h
    · rename_i r hone
      rw [h] at hone
      exact pullOne_window cfg f now st q p st' hone hb hd
    · rename_i st2 hone
      exact ih st2 p st' h hb hd

/-- A fresh outbound data packet without an assigned sequence number. -/
def c4Pkt : InPkt :=
  { broadcast := false, dataLen := 1, hasSeq := false, seq := 0,
    shouldDrop := false, retransmission := false, nretrans := 0 }

/-- The result of pulling `c4Pkt` through the fresh window `c3State`. -/
def c4Res : InPkt × SendW :=
  (pullM ⟨true, true, true, true⟩ (fun _ => false) 5 c3State [c4Pkt]).getD (c4Pkt, c3State)

/-- Witness for C4 at a concrete input: pulling one fresh data packet
from a fresh window returns it with sequence 0, inside the window. -/
theorem pull_returns_in_window_witness :
    c4Res.1.broadcast = false ∧ c4Res.1.dataLen ≠ 0 ∧
    seqLt c4Res.1.seq c4Res.2.unack = false ∧
    seqGe c4Res.1.seq (c4Res.2.unack + c4Res.2.win) = false := by
  have h := pull_returns_in_window ⟨true, true, true, true⟩ (fun _ => false) 5
    [c4Pkt] c3State c4Res.1 c4Res.2 rfl (by decide) (by decide)
  exact ⟨by decide, by decide, h.1, h.2⟩

/-! ## C5/C6: receive window and `appendFeedback`

The receive window (`RecvWindow` of `mac/SmartController.hh`) as read by
`appendFeedback` and by the ACK/NAK injection paths: the next sequence to
ACK, the largest received sequence, the window size (which is also the
size of the circular entry array), the per-entry `received` flags, the
`need_selective_ack` flag, and the explicit-NAK rate limiter ring. -/
structure RecvW where
  ack : Nat
  maxSeq : Nat
  win : Nat
  received : Nat → Bool
  need_selective_ack : Bool
  explicit_nak_win : List Nat
  explicit_nak_idx : Nat

/-- `recvw[seq].received`: the received flag of the circular entry
`seq % entries_.size()`. -/
def recvd (rw : RecvW) (s : Nat) : Bool := rw.received (u16 s % rw.win)

/-- The run accumulator of the selective-ACK walk in
`SmartController::appendFeedback`: `in_run`, `begin` (here `first`),
`end` (here `last`), and the `SelectiveAck` TLVs emitted so far. -/
structure SackSt where
  in_run : Bool
  first : Nat
  last : Nat
  sacks : List (Nat × Nat)

/-- The body of the selective-ACK walk: a received sequence number opens
or extends the current run; a hole closes the run, emitting
`SelectiveAck(begin, end + 1)`. -/
def sackStep (rw : RecvW) (a : SackSt) (s : Nat) : SackSt :=
  if recvd rw s then
    let a1 := if !a.in_run then { a with in_run := true, first := s } else a
    { a1 with last := s }
  else
    if a.in_run then { a with sacks := a.sacks ++ [(a.first, a.last + 1)], in_run := false }
    else a

/-- The walk `for (seq = ack + 1; seq <= max; ++seq)` of
`appendFeedback`, fuel-bounded. -/
def sackLoopF (rw : RecvW) : Nat → Nat → SackSt → SackSt
  | 0, _, a => a
  | fuel + 1, s, a =>
    if seqLe s rw.maxSeq then sackLoopF rw fuel (s + 1) (sackStep rw a s) else a

/-- The selective-ACK TLV list composed by `appendFeedback`: the walk
over `[ack + 1, max]`, the close-out of the final run, and the empty
`SelectiveAck(max + 1, max + 1)` sentinel when the last tracked `end`
falls short of `max`. -/
def appendFeedbackSacks (rw : RecvW) : List (Nat × Nat) :=
  let a0 : SackSt := { in_run := false, first := rw.ack, last := rw.ack, sacks := [] }
  let a1 := sackLoopF rw 65536 (rw.ack + 1) a0
  let a2 := if a1.in_run then a1.sacks ++ [(a1.first, a1.last + 1)] else a1.sacks
  if seqLt a1.last rw.maxSeq then a2 ++ [(rw.maxSeq + 1, rw.maxSeq + 1)] else a2

/-- Adequacy of the fuel bound for the selective-ACK walk. -/
theorem sackLoopF_eq_foldl (rw : RecvW) : ∀ (n fuel s : Nat) (a : SackSt), n ≤ fuel →
    s + n = rw.maxSeq + 1 → rw.maxSeq ≤ s + 32767 →
    sackLoopF rw fuel s a = List.foldl (sackStep rw) a (List.range' s n) := by
  intro n
  induction n with
  | zero =>
    intro fuel s a _ hs hspan
    have hle : seqLe s rw.maxSeq = false := by
      cases hb : seqLe s rw.maxSeq
      · rfl
      · rw [seqLe_iff (by omega) (by omega)] at hb
        omega
    cases fuel with
    | zero => rfl
    | succ f =>
      rw [sackLoopF, hle]
      rfl
  | succ m ih =>
    intro fuel s a hfuel hs hspan
    cases fuel with
    | zero => omega
    | succ f =>
      have hle : seqLe s rw.maxSeq = true := by
        rw [seqLe_iff (by omega) (by omega)]
        omega
      rw [sackLoopF, hle]
      simp only [if_true, List.range'_succ, List.foldl_cons]
      exact ih f (s + 1) (sackStep rw a s) (by omega) (by omega) (by omega)

/-- Recursive form of the selective-ACK walk over an explicit list of
sequence numbers, with the open run threaded as an option and the final
close-out built in.  `List.foldl (sackStep rw)` computes exactly this
(see `sackFold_eq_runsAux`). -/
def sackRunsAux (R : Nat → Bool) : List Nat → Option (Nat × Nat) → List (Nat × Nat)
  | [], none => []
  | [], some (b, e) => [(b, e + 1)]
  | s :: rest, none =>
    if R s then sackRunsAux R rest (some (s, s)) else sackRunsAux R rest none
  | s :: rest, some (b, e) =>
    if R s then sackRunsAux R rest (some (b, s))
    else (b, e + 1) :: sackRunsAux R rest none

/-- The fold of the walk body followed by the close-out computes
`sackRunsAux`. -/
theorem sackFold_eq_runsAux (rw : RecvW) : ∀ (l : List Nat) (a : SackSt),
    (let fin := List.foldl (sackStep rw) a l
     fin.sacks ++ (if fin.in_run then [(fin.first, fin.last + 1)] else [])) =
    a.sacks ++ sackRunsAux (recvd rw) l
      (if a.in_run then some (a.first, a.last) else none) := by
  intro l
  induction l with
  | nil =>
    intro a
    cases hr : a.in_run <;> simp [sackRunsAux, hr]
  | cons s rest ih =>
    intro a
    show (let fin := List.foldl (sackStep rw) (sackStep rw a s) rest
          fin.sacks ++ (if fin.in_run then [(fin.first, fin.last + 1)] else [])) = _
    rw [ih (sackStep rw a s)]
    unfold sackStep
    cases hr : a.in_run <;> cases hR : recvd rw s <;>
      simp [sackRunsAux, hr, hR, List.append_assoc]

/-- Length of the maximal prefix of `[s, s + n)` on which `R` holds. -/
def contLen (R : Nat → Bool) : Nat → Nat → Nat
  | _, 0 => 0
  | s, n + 1 => if R s then contLen R (s + 1) n + 1 else 0

/-- The maximal `R`-prefix is bounded by the interval length. -/
theorem contLen_le (R : Nat → Bool) : ∀ n s, contLen R s n ≤ n := by
  intro n
  induction n with
  | zero => intro s; exact Nat.le_refl 0
  | succ m ih =>
    intro s
    unfold contLen
    split
    · exact Nat.succ_le_succ (ih (s + 1))
    · exact Nat.zero_le _

/-- `R` holds on the whole maximal prefix, and the prefix is maximal:
either it exhausts the interval or `R` fails just past it. -/
theorem contLen_spec (R : Nat → Bool) : ∀ n s,
    (∀ x, s ≤ x → x < s + contLen R s n → R x = true) ∧
    (contLen R s n = n ∨ R (s + contLen R s n) = false) := by
  intro n
  induction n with
  | zero =>
    intro s
    exact ⟨fun x h1 h2 => absurd h2 (by unfold contLen; omega), Or.inl rfl⟩
  | succ m ih =>
    intro s
    unfold contLen
    cases hR : R s with
    | false =>
      simp only [Bool.false_eq_true, if_false]
      exact ⟨fun x h1 h2 => absurd h2 (by omega), Or.inr (by simpa using hR)⟩
    | true =>
      simp only [if_true]
      obtain ⟨ihall, ihmax⟩ := ih (s + 1)
      constructor
      · intro x h1 h2
        by_cases hx : x = s
        · rw [hx]; exact hR
        · exact ihall x (by omega) (by omega)
      · cases ihmax with
        | inl h => exact Or.inl (by omega)
        | inr h => exact Or.inr (by rw [show s + (contLen R (s + 1) m + 1) = s + 1 + contLen R (s + 1) m by omega]; exact h)

/-- Processing an interval with an open run first closes that run at the
end of the maximal `R`-prefix, then continues closed. -/
theorem sackRunsAux_open (R : Nat → Bool) : ∀ (n s b0 e0 : Nat), e0 + 1 = s →
    sackRunsAux R (List.range' s n) (some (b0, e0)) =
      (b0, s + contLen R s n) ::
        sackRunsAux R (List.range' (s + contLen R s n) (n - contLen R s n)) none := by
  intro n
  induction n with
  | zero =>
    intro s b0 e0 he
    show [(b0, e0 + 1)] = _
    rw [he]
    rfl
  | succ m ih =>
    intro s b0 e0 he
    rw [List.range'_succ]
    show (if R s then sackRunsAux R (List.range' (s + 1) m) (some (b0, s))
          else (b0, e0 + 1) :: sackRunsAux R (List.range' (s + 1) m) none) = _
    cases hR : R s with
    | true =>
      simp only [if_true]
      rw [ih (s + 1) b0 s rfl]
      have hc : contLen R s (m + 1) = contLen R (s + 1) m + 1 := by
        show (if R s = true then contLen R (s + 1) m + 1 else 0) = _
        rw [hR]
        simp
      rw [hc]
      have h1 : s + (contLen R (s + 1) m + 1) = s + 1 + contLen R (s + 1) m := by omega
      have h2 : m + 1 - (contLen R (s + 1) m + 1) = m - contLen R (s + 1) m := by omega
      rw [h1, h2]
    | false =>
      simp only [Bool.false_eq_true, if_false]
      rw [he]
      have hc : contLen R s (m + 1) = 0 := by
        unfold contLen
        rw [hR]
        simp
      rw [hc]
      simp only [Nat.add_zero, Nat.sub_zero]
      congr 1
      rw [List.range'_succ]
      show _ = (if R s then sackRunsAux R (List.range' (s + 1) m) (some (s, s))
                else sackRunsAux R (List.range' (s + 1) m) none)
      rw [hR]
      simp

/-- `(b, c)` is a maximal run of `R` inside the half-open interval
`[lo, hi)`: a nonempty all-`R` stretch that cannot be extended on either
side without leaving the interval or hitting a hole. -/
def IsMaxRun (R : Nat → Bool) (lo hi b c : Nat) : Prop :=
  lo ≤ b ∧ b < c ∧ c ≤ hi ∧ (∀ x, b ≤ x → x < c → R x = true) ∧
    (b = lo ∨ R (b - 1) = false) ∧ (c = hi ∨ R c = false)

/-- Elements of `List.range' s n` (step 1) lie in `[s, s + n)`. -/
theorem mem_range1_bounds {m s n : Nat} (h : m ∈ List.range' s n) :
    s ≤ m ∧ m < s + n := by
  obtain ⟨i, hi, he⟩ := List.mem_range'.mp h
  omega

/-- Over an empty interval the walk emits nothing and no maximal run
exists. -/
theorem isMaxRun_base (R : Nat → Bool) (s b c : Nat) :
    ((b, c) ∈ sackRunsAux R (List.range' s 0) none ↔ IsMaxRun R s (s + 0) b c) := by
  constructor
  · intro h
    rw [List.range'_zero] at h
    simp [sackRunsAux] at h
  · intro h
    unfold IsMaxRun at h
    obtain ⟨h1, h2, h3, -⟩ := h
    omega

/-- A hole at the left end of the interval shifts the interval without
changing its maximal runs. -/
theorem isMaxRun_shift (R : Nat → Bool) (s m b c : Nat) (hR : R s = false) :
    IsMaxRun R (s + 1) (s + 1 + m) b c ↔ IsMaxRun R s (s + (m + 1)) b c := by
  unfold IsMaxRun
  constructor
  · rintro ⟨h1, h2, h3, h4, h5, h6⟩
    refine ⟨by omega, h2, by omega, h4, ?_, ?_⟩
    · cases h5 with
      | inl h => exact Or.inr (by rw [h]; simpa using hR)
      | inr h => exact Or.inr h
    · cases h6 with
      | inl h => exact Or.inl (by omega)
      | inr h => exact Or.inr h
  · rintro ⟨h1, h2, h3, h4, h5, h6⟩
    have hRb : R b = true := h4 b (Nat.le_refl b) h2
    have hb : s + 1 ≤ b := by
      rcases Nat.lt_or_ge s b with h | h
      · omega
      · exfalso
        have hbs : b = s := by omega
        rw [hbs, hR] at hRb
        exact absurd hRb (by decide)
    refine ⟨hb, h2, by omega, h4, ?_, ?_⟩
    · cases h5 with
      | inl h => exact absurd h (by omega)
      | inr h => exact Or.inr h
    · cases h6 with
      | inl h => exact Or.inl (by omega)
      | inr h => exact Or.inr h

/-- Processing an interval from the closed state emits exactly the
maximal runs of `R` inside it. -/
theorem sackRunsAux_none_mem (R : Nat → Bool) : ∀ (fuel n : Nat), n ≤ fuel →
    ∀ (s b c : Nat),
    ((b, c) ∈ sackRunsAux R (List.range' s n) none ↔ IsMaxRun R s (s + n) b c) := by
  intro fuel
  induction fuel with
  | zero =>
    intro n hn s b c
    have hz : n = 0 := by omega
    subst hz
    exact isMaxRun_base R s b c
  | succ f ih =>
    intro n hn s b c
    cases n with
    | zero => exact isMaxRun_base R s b c
    | succ m =>
      rw [List.range'_succ]
      show ((b, c) ∈ (if R s then sackRunsAux R (List.range' (s + 1) m) (some (s, s))
            else sackRunsAux R (List.range' (s + 1) m) none)) ↔ _
      cases hR : R s with
      | false =>
        rw [if_neg (by decide)]
        rw [ih m (by omega) (s + 1) b c]
        exact isMaxRun_shift R s m b c hR
      | true =>
        rw [if_pos rfl]
        rw [sackRunsAux_open R m (s + 1) s s rfl]
        rw [List.mem_cons]
        rw [ih (m - contLen R (s + 1) m) (by omega) (s + 1 + contLen R (s + 1) m) b c]
        obtain ⟨hall, hmax⟩ := contLen_spec R m (s + 1)
        have hKle : contLen R (s + 1) m ≤ m := contLen_le R m (s + 1)
        constructor
        · rintro (he | hmr)
          · rw [Prod.mk.injEq] at he
            obtain ⟨hb, hc⟩ := he
            subst hb
            subst hc
            refine ⟨Nat.le_refl _, by omega, by omega, ?_, Or.inl rfl, ?_⟩
            · intro x hx1 hx2
              rcases Nat.lt_or_ge x (b + 1) with hx | hx
              · have hxb : x = b := by omega
                rw [hxb]
                exact hR
              · exact hall x (by omega) (by omega)
            · cases hmax with
              | inl h => exact Or.inl (by omega)
              | inr h => exact Or.inr h
          · obtain ⟨h1, h2, h3, h4, h5, h6⟩ := hmr
            have hRb : R b = true := h4 b (Nat.le_refl b) h2
            have hbgt : s + 1 + contLen R (s + 1) m < b := by
              rcases Nat.eq_or_lt_of_le h1 with he | hlt
              · exfalso
                cases hmax with
                | inr hf =>
                  rw [he, hRb] at hf
                  exact absurd hf (by decide)
                | inl hm => omega
              · exact hlt
            refine ⟨by omega, h2, by omega, h4, ?_, ?_⟩
            · cases h5 with
              | inl h => exact absurd h (by omega)
              | inr h => exact Or.inr h
            · cases h6 with
              | inl h => exact Or.inl (by omega)
              | inr h => exact Or.inr h
        · rintro ⟨h1, h2, h3, h4, h5, h6⟩
          by_cases hbs : b = s
          · left
            subst hbs
            have hc1 : c ≤ b + 1 + contLen R (b + 1) m := by
              by_contra hcon
              push_neg at hcon
              have hT : R (b + 1 + contLen R (b + 1) m) = true :=
                h4 _ (by omega) (by omega)
              cases hmax with
              | inl hm => omega
              | inr hf =>
                rw [hT] at hf
                exact absurd hf (by decide)
            have hc2 : b + 1 + contLen R (b + 1) m ≤ c := by
              by_contra hcon
              push_neg at hcon
              have hF : R c = false := by
                cases h6 with
                | inl h => omega
                | inr h => exact h
              have hT : R c = true := hall c (by omega) (by omega)
              rw [hT] at hF
              exact absurd hF (by decide)
            rw [Prod.mk.injEq]
            exact ⟨rfl, by omega⟩
          · right
            have hRb : R b = true := h4 b (Nat.le_refl b) h2
            have hb1 : s + 1 ≤ b := by omega
            have hf5 : R (b - 1) = false := by
              cases h5 with
              | inl h => exact absurd h hbs
              | inr h => exact h
            have hbK : s + 1 + contLen R (s + 1) m ≤ b := by
              by_contra hcon
              push_neg at hcon
              rcases Nat.eq_or_lt_of_le hb1 with he | hlt
              · rw [show b - 1 = s by omega, hR] at hf5
                exact absurd hf5 (by decide)
              · have hT : R (b - 1) = true := hall (b - 1) (by omega) (by omega)
                rw [hT] at hf5
                exact absurd hf5 (by decide)
            refine ⟨hbK, h2, by omega, h4, Or.inr hf5, ?_⟩
            cases h6 with
            | inl h => exact Or.inl (by omega)
            | inr h => exact Or.inr h

/-- Interval form of `sackRunsAux_none_mem` without the fuel bound. -/
theorem sackRunsAux_mem (R : Nat → Bool) (n s b c : Nat) :
    ((b, c) ∈ sackRunsAux R (List.range' s n) none ↔ IsMaxRun R s (s + n) b c) :=
  sackRunsAux_none_mem R n n (Nat.le_refl n) s b c

/-- The runs emitted by the walk are in increasing order with
pairwise-disjoint half-open ranges: each run ends no later than the next
begins. -/
theorem sackRunsAux_chain (R : Nat → Bool) : ∀ (fuel n : Nat), n ≤ fuel →
    ∀ (s : Nat),
    List.Chain' (fun x y : Nat × Nat => x.2 ≤ y.1)
      (sackRunsAux R (List.range' s n) none) := by
  intro fuel
  induction fuel with
  | zero =>
    intro n hn s
    have hz : n = 0 := by omega
    subst hz
    rw [List.range'_zero]
    exact List.chain'_nil
  | succ f ih =>
    intro n hn s
    cases n with
    | zero =>
      rw [List.range'_zero]
      exact List.chain'_nil
    | succ m =>
      rw [List.range'_succ]
      show List.Chain' _ (if R s then sackRunsAux R (List.range' (s + 1) m) (some (s, s))
            else sackRunsAux R (List.range' (s + 1) m) none)
      cases hR : R s with
      | false =>
        rw [if_neg (by decide)]
        exact ih m (by omega) (s + 1)
      | true =>
        rw [if_pos rfl]
        rw [sackRunsAux_open R m (s + 1) s s rfl]
        rw [List.chain'_cons']
        have hKle : contLen R (s + 1) m ≤ m := contLen_le R m (s + 1)
        refine ⟨?_, ih (m - contLen R (s + 1) m) (by omega) (s + 1 + contLen R (s + 1) m)⟩
        intro y hy
        obtain ⟨y1, y2⟩ := y
        have hmem := List.mem_of_mem_head? hy
        have hmr := (sackRunsAux_mem R (m - contLen R (s + 1) m)
          (s + 1 + contLen R (s + 1) m) y1 y2).mp hmem
        obtain ⟨h1, -⟩ := hmr
        exact h1

/-- `Option.getD` through a `cons` on `getLast?`: the head becomes the
new default. -/
theorem getLast?_cons_getD {α : Type} (s d : α) (t : List α) :
    ((s :: t).getLast?).getD d = (t.getLast?).getD s := by
  cases t with
  | nil => rfl
  | cons x t' =>
    rw [List.getLast?_cons_cons]
    cases h : (x :: t').getLast? with
    | none => simp at h
    | some y => rfl

/-- The `end` field tracked by the walk body is the last received
sequence number seen so far (or the initial value if none). -/
theorem sackFold_last (rw : RecvW) : ∀ (l : List Nat) (a : SackSt),
    (List.foldl (sackStep rw) a l).last =
      ((l.filter (recvd rw)).getLast?).getD a.last := by
  intro l
  induction l with
  | nil => intro a; rfl
  | cons s rest ih =>
    intro a
    show (List.foldl (sackStep rw) (sackStep rw a s) rest).last = _
    rw [ih (sackStep rw a s)]
    rw [List.filter_cons]
    unfold sackStep
    cases hR : recvd rw s with
    | false =>
      simp only [Bool.false_eq_true, if_false]
      cases hr : a.in_run <;> simp [hr]
    | true =>
      simp only [if_true]
      rw [getLast?_cons_getD]

/-- The walk stops immediately when its loop condition fails at entry. -/
theorem sackLoopF_stop (rw : RecvW) (fuel s : Nat) (a : SackSt)
    (h : seqLe s rw.maxSeq = false) : sackLoopF rw fuel s a = a := by
  cases fuel with
  | zero => rfl
  | succ f =>
    rw [sackLoopF, h]
    rfl

/-- When `ack = maxSeq + 1` (everything received has been ACKed) the
feedback walk emits no TLVs and no sentinel. -/
theorem appendFeedbackSacks_empty (rw : RecvW) (h : rw.ack = rw.maxSeq + 1)
    (hspan : rw.maxSeq ≤ rw.ack + 32766) :
    appendFeedbackSacks rw = [] := by
  have hle1 : seqLe (rw.ack + 1) rw.maxSeq = false := by
    cases hb : seqLe (rw.ack + 1) rw.maxSeq
    · rfl
    · rw [seqLe_iff (by omega) (by omega)] at hb
      omega
  have hlt : seqLt rw.ack rw.maxSeq = false := by
    cases hb : seqLt rw.ack rw.maxSeq
    · rfl
    · rw [seqLt_iff (by omega) (by omega)] at hb
      omega
  simp only [appendFeedbackSacks]
  rw [sackLoopF_stop rw 65536 (rw.ack + 1) _ hle1]
  simp [hlt]

/-- In the non-degenerate case (`ack ≤ maxSeq`, span bounded) the TLV
list is the run list of the interval `[ack + 1, maxSeq]` followed by the
sentinel exactly when the last received sequence in that interval (or
`ack` if there is none) precedes `maxSeq`. -/
theorem appendFeedbackSacks_eq (rw : RecvW) (hle : rw.ack ≤ rw.maxSeq)
    (hspan : rw.maxSeq ≤ rw.ack + 32766) :
    appendFeedbackSacks rw =
      sackRunsAux (recvd rw) (List.range' (rw.ack + 1) (rw.maxSeq - rw.ack)) none ++
        (if seqLt ((((List.range' (rw.ack + 1) (rw.maxSeq - rw.ack)).filter
              (recvd rw)).getLast?).getD rw.ack) rw.maxSeq = true
         then [(rw.maxSeq + 1, rw.maxSeq + 1)] else []) := by
  have hfold := sackLoopF_eq_foldl rw (rw.maxSeq - rw.ack) 65536 (rw.ack + 1)
    ⟨false, rw.ack, rw.ack, []⟩ (by omega) (by omega) (by omega)
  have hrun := sackFold_eq_runsAux rw (List.range' (rw.ack + 1) (rw.maxSeq - rw.ack))
    ⟨false, rw.ack, rw.ack, []⟩
  have hlast := sackFold_last rw (List.range' (rw.ack + 1) (rw.maxSeq - rw.ack))
    ⟨false, rw.ack, rw.ack, []⟩
  simp only [appendFeedbackSacks]
  rw [hfold]
  simp only [Bool.false_eq_true, if_false, List.nil_append] at hrun
  generalize hF : List.foldl (sackStep rw) (⟨false, rw.ack, rw.ack, []⟩ : SackSt)
      (List.range' (rw.ack + 1) (rw.maxSeq - rw.ack)) = F at hrun hlast ⊢
  rw [hlast] at hrun ⊢
  have ha2 : (if F.in_run = true
        then F.sacks ++ [(F.first,
          ((((List.range' (rw.ack + 1) (rw.maxSeq - rw.ack)).filter
            (recvd rw)).getLast?).getD rw.ack) + 1)]
        else F.sacks) =
      sackRunsAux (recvd rw) (List.range' (rw.ack + 1) (rw.maxSeq - rw.ack)) none := by
    rw [← hrun]
    cases hr : F.in_run <;> simp [hr]
  rw [ha2]
  cases hC : seqLt ((((List.range' (rw.ack + 1) (rw.maxSeq - rw.ack)).filter
      (recvd rw)).getLast?).getD rw.ack) rw.maxSeq <;> simp [hC]

/-- The walk's final `end` value precedes `maxSeq` in `Seq` order iff
the interval `[ack + 1, maxSeq]` is nonempty and `maxSeq` itself was
not received. -/
theorem sentinel_cond (rw : RecvW) (hle : rw.ack ≤ rw.maxSeq)
    (hspan : rw.maxSeq ≤ rw.ack + 32766) :
    (seqLt ((((List.range' (rw.ack + 1) (rw.maxSeq - rw.ack)).filter
        (recvd rw)).getLast?).getD rw.ack) rw.maxSeq = true)
      ↔ (rw.ack + 1 ≤ rw.maxSeq ∧ recvd rw rw.maxSeq = false) := by
  set l := List.range' (rw.ack + 1) (rw.maxSeq - rw.ack) with hl
  set D := ((l.filter (recvd rw)).getLast?).getD rw.ack with hD
  have hDcases : D = rw.ack ∨ D ∈ l.filter (recvd rw) := by
    rw [hD]
    cases h : (l.filter (recvd rw)).getLast? with
    | none => left; rfl
    | some x =>
      right
      simpa using List.mem_of_getLast?_eq_some h
  have hDlow : rw.ack ≤ D ∧ D ≤ rw.maxSeq := by
    cases hDcases with
    | inl h => omega
    | inr h =>
      have hmem := (List.mem_filter.mp h).1
      rw [hl] at hmem
      have hb := mem_range1_bounds hmem
      omega
  rw [seqLt_iff (by omega) (by omega)]
  constructor
  · intro hlt
    have h1 : rw.ack + 1 ≤ rw.maxSeq := by omega
    refine ⟨h1, ?_⟩
    cases hx : recvd rw rw.maxSeq with
    | false => rfl
    | true =>
      exfalso
      have hsplit : l = List.range' (rw.ack + 1) (rw.maxSeq - rw.ack - 1) ++ [rw.maxSeq] := by
        rw [hl]
        have hn : rw.maxSeq - rw.ack = (rw.maxSeq - rw.ack - 1) + 1 := by omega
        rw [hn, List.range'_1_concat]
        congr 2
        omega
      have hDm : D = rw.maxSeq := by
        rw [hD, hsplit, List.filter_append]
        rw [show List.filter (recvd rw) [rw.maxSeq] = [rw.maxSeq] from by simp [hx]]
        rw [List.getLast?_concat]
        rfl
      omega
  · rintro ⟨h1, hR⟩
    cases hDcases with
    | inl h => omega
    | inr h =>
      obtain ⟨hmemL, hRD⟩ := List.mem_filter.mp h
      rw [hl] at hmemL
      have hb := mem_range1_bounds hmemL
      have hne : D ≠ rw.maxSeq := by
        intro he
        rw [he, hR] at hRD
        exact absurd hRD (by decide)
      omega

/-- C5: with selective ACKs enabled, the feedback walk of
`SmartController::appendFeedback` emits exactly one
`SelectiveAck(begin, end + 1)` TLV per maximal run of received sequence
numbers in `[ack + 1, max]` (membership characterization), in
increasing order with pairwise-disjoint half-open ranges (the end of
each range is at most the begin of the next), and it appends the empty
`SelectiveAck(max + 1, max + 1)` sentinel iff the interval is nonempty
and `max` itself was not received, i.e. iff the final run does not
extend to `max`. -/
theorem appendFeedback_sacks_spec (rw : RecvW)
    (h1 : rw.ack ≤ rw.maxSeq + 1) (h2 : rw.maxSeq ≤ rw.ack + 32766) :
    (∀ b c, ((b, c) ∈ appendFeedbackSacks rw ∧ b < c) ↔
        IsMaxRun (recvd rw) (rw.ack + 1) (rw.maxSeq + 1) b c) ∧
    List.Chain' (fun x y : Nat × Nat => x.2 ≤ y.1) (appendFeedbackSacks rw) ∧
    ((rw.maxSeq + 1, rw.maxSeq + 1) ∈ appendFeedbackSacks rw ↔
        (rw.ack + 1 ≤ rw.maxSeq ∧ recvd rw rw.maxSeq = false)) := by
  rcases Nat.lt_or_ge rw.maxSeq rw.ack with hcase | hcase
  · have hack : rw.ack = rw.maxSeq + 1 := by omega
    rw [appendFeedbackSacks_empty rw hack h2]
    refine ⟨?_, List.chain'_nil, ?_⟩
    · intro b c
      constructor
      · rintro ⟨hmem, -⟩
        exact absurd hmem (List.not_mem_nil _)
      · intro h
        unfold IsMaxRun at h
        obtain ⟨g1, g2, g3, -⟩ := h
        omega
    · constructor
      · intro h
        exact absurd h (List.not_mem_nil _)
      · rintro ⟨g1, -⟩
        omega
  · rw [appendFeedbackSacks_eq rw hcase h2]
    have hiv : rw.ack + 1 + (rw.maxSeq - rw.ack) = rw.maxSeq + 1 := by omega
    set D := (((List.range' (rw.ack + 1) (rw.maxSeq - rw.ack)).filter
        (recvd rw)).getLast?).getD rw.ack with hDdef
    refine ⟨?_, ?_, ?_⟩
    · intro b c
      constructor
      · rintro ⟨hmem, hbc⟩
        rcases List.mem_append.mp hmem with hm | hm
        · have hmr := (sackRunsAux_mem (recvd rw) (rw.maxSeq - rw.ack) (rw.ack + 1) b c).mp hm
          rw [hiv] at hmr
          exact hmr
        · exfalso
          cases hC : seqLt D rw.maxSeq with
          | false =>
            rw [hC] at hm
            simp at hm
          | true =>
            rw [hC] at hm
            simp at hm
            omega
      · intro hmr
        have hbc : b < c := hmr.2.1
        have hm : (b, c) ∈ sackRunsAux (recvd rw)
            (List.range' (rw.ack + 1) (rw.maxSeq - rw.ack)) none :=
          (sackRunsAux_mem (recvd rw) (rw.maxSeq - rw.ack) (rw.ack + 1) b c).mpr
            (by rw [hiv]; exact hmr)
        exact ⟨List.mem_append_left _ hm, hbc⟩
    · rw [List.chain'_append]
      refine ⟨?_, ?_, ?_⟩
      · exact sackRunsAux_chain (recvd rw) (rw.maxSeq - rw.ack) (rw.maxSeq - rw.ack)
          (Nat.le_refl _) (rw.ack + 1)
      · cases hC : seqLt D rw.maxSeq <;> simp
      · intro x hx y hy
        obtain ⟨x1, x2⟩ := x
        obtain ⟨y1, y2⟩ := y
        rw [Option.mem_def] at hx hy
        have hxm := List.mem_of_getLast?_eq_some hx
        have hmr := (sackRunsAux_mem (recvd rw) (rw.maxSeq - rw.ack)
          (rw.ack + 1) x1 x2).mp hxm
        have hc3 : x2 ≤ rw.ack + 1 + (rw.maxSeq - rw.ack) := hmr.2.2.1
        cases hC : seqLt D rw.maxSeq with
        | false =>
          rw [hC] at hy
          simp at hy
        | true =>
          rw [hC] at hy
          simp at hy
          show x2 ≤ y1
          omega
    · constructor
      · intro hmem
        rcases List.mem_append.mp hmem with hm | hm
        · exfalso
          have hmr := (sackRunsAux_mem (recvd rw) (rw.maxSeq - rw.ack)
            (rw.ack + 1) (rw.maxSeq + 1) (rw.maxSeq + 1)).mp hm
          have hbc := hmr.2.1
          omega
        · cases hC : seqLt D rw.maxSeq with
          | false =>
            rw [hC] at hm
            simp at hm
          | true =>
            refine (sentinel_cond rw hcase h2).mp ?_
            rw [hDdef] at hC
            exact hC
      · intro hrc
        have hC : seqLt D rw.maxSeq = true := by
          rw [hDdef]
          exact (sentinel_cond rw hcase h2).mpr hrc
        rw [hC]
        simp

/-- A concrete receive window: `ack = 0`, `maxSeq = 5`, sequences 2 and
3 received.  The walk emits the run `(2, 4)` and the sentinel
`(6, 6)`. -/
def c5Rw : RecvW :=
  { ack := 0, maxSeq := 5, win := 8, received := fun i => i == 2 || i == 3,
    need_selective_ack := true, explicit_nak_win := [], explicit_nak_idx := 0 }

theorem appendFeedback_sacks_spec_witness :
    c5Rw.ack ≤ c5Rw.maxSeq + 1 ∧ c5Rw.maxSeq ≤ c5Rw.ack + 32766 ∧
    ((∀ b c, ((b, c) ∈ appendFeedbackSacks c5Rw ∧ b < c) ↔
        IsMaxRun (recvd c5Rw) (c5Rw.ack + 1) (c5Rw.maxSeq + 1) b c) ∧
      List.Chain' (fun x y : Nat × Nat => x.2 ≤ y.1) (appendFeedbackSacks c5Rw) ∧
      (((c5Rw.maxSeq + 1, c5Rw.maxSeq + 1) ∈ appendFeedbackSacks c5Rw) ↔
        (c5Rw.ack + 1 ≤ c5Rw.maxSeq ∧ recvd c5Rw c5Rw.maxSeq = false))) :=
  ⟨by decide, by decide, appendFeedback_sacks_spec c5Rw (by decide) (by decide)⟩

/-- The MTU-pruning stage at the end of `SmartController::appendFeedback`
(lines 1030-1059), abstracted over the packet: `size` is the total
packet size with all `sacks` appended, `ss` is
`ctrlsize(ControlMsg::kSelectiveAck)`, and `mtu` is `rc.mtu`.  When the
packet exceeds the MTU the code removes
`nremove = ceil((size - mtu) / ss)` SACKs, clamped to the number of
SACKs present, from the front of the SACK region (`memmove` keeps the
latest ones), and shrinks the control length and packet size by
`nremove * ss`. -/
def pruneSacks (mtu ss size : Nat) (sacks : List (Nat × Nat)) : List (Nat × Nat) × Nat :=
  if size > mtu then
    let nremove0 := (size - mtu + ss - 1) / ss
    let nremove := if nremove0 > sacks.length then sacks.length else nremove0
    if nremove > 0 then (sacks.drop nremove, size - nremove * ss)
    else (sacks, size)
  else (sacks, size)

/-- C6: when the composed packet exceeds the MTU, the earliest SACK TLVs
are removed first: the surviving TLVs are a suffix (`List.drop r`) of
the appended ones and the packet size shrinks by `r * ss`.  The
resulting size is at most the MTU — this requires the additional
hypothesis that the packet minus all of its SACKs fits in the MTU,
because the removal count is clamped to the number of SACKs present. -/
theorem appendFeedback_mtu_prune (mtu ss size : Nat) (sacks : List (Nat × Nat))
    (hss : 0 < ss) (hbase : size - sacks.length * ss ≤ mtu) :
    ∃ r, r ≤ sacks.length ∧
      pruneSacks mtu ss size sacks = (sacks.drop r, size - r * ss) ∧
      size - r * ss ≤ mtu := by
  unfold pruneSacks
  rcases Nat.lt_or_ge mtu size with hgt | hle
  · rw [if_pos hgt]
    dsimp only
    rcases Nat.lt_or_ge sacks.length ((size - mtu + ss - 1) / ss) with hclamp | hclamp
    · rw [if_pos hclamp]
      have hpos : 0 < sacks.length := by
        rcases Nat.eq_zero_or_pos sacks.length with hz | hp
        · exfalso
          rw [hz] at hbase
          omega
        · exact hp
      rw [if_pos hpos]
      exact ⟨sacks.length, Nat.le_refl _, rfl, hbase⟩
    · have hq := Nat.div_add_mod (size - mtu + ss - 1) ss
      have hr := Nat.mod_lt (size - mtu + ss - 1) hss
      have hpos : 0 < (size - mtu + ss - 1) / ss := by
        rcases Nat.eq_zero_or_pos ((size - mtu + ss - 1) / ss) with hz | hp
        · exfalso
          rw [hz] at hq
          omega
        · exact hp
      rw [if_neg (show ¬((size - mtu + ss - 1) / ss > sacks.length) by omega)]
      rw [if_pos hpos]
      refine ⟨(size - mtu + ss - 1) / ss, hclamp, rfl, ?_⟩
      rw [Nat.mul_comm]
      omega
  · rw [if_neg (by omega)]
    exact ⟨0, Nat.zero_le _, by simp, by omega⟩

theorem appendFeedback_mtu_prune_witness :
    0 < 6 ∧ 40 - [(0, 2), (3, 5), (7, 9)].length * 6 ≤ 30 ∧
    ∃ r, r ≤ [(0, 2), (3, 5), (7, 9)].length ∧
      pruneSacks 30 6 40 [(0, 2), (3, 5), (7, 9)] =
        ([(0, 2), (3, 5), (7, 9)].drop r, 40 - r * 6) ∧
      40 - r * 6 ≤ 30 :=
  ⟨by decide, by decide,
    appendFeedback_mtu_prune 30 6 40 [(0, 2), (3, 5), (7, 9)] (by decide) (by decide)⟩

/-- C6 counterexample to the unconditional MTU bound of the claim: a
packet of size 100 against MTU 10 carrying a single SACK (of size 6).
The removal count is clamped to the one SACK present, so the pruned
packet still has size 94 > 10. -/
theorem appendFeedback_mtu_prune_counterexample :
    (pruneSacks 10 6 100 [(0, 1)]).2 = 94 ∧ 10 < (pruneSacks 10 6 100 [(0, 1)]).2 := by
  decide

/-! ## C7: `SlottedMAC::finalizeSlot`

A modulated packet as seen by `finalizeSlot`/`missedSlot`: only its
`kIsTimestamp` internal flag and an identifier are relevant.  A
`Synthesizer::Slot` carries a deadline, its modulated packets and its
`closed` flag.  Time points are modeled as `Int`; the helper `approx`
(whose definition is not part of this tree) is a parameter. -/
structure MPkt where
  isTimestamp : Bool
  pktId : Nat

structure Slot where
  deadline : Int
  mpkts : List MPkt
  closed : Bool

/-- The MAC state read and written by `finalizeSlot`: whether a TX burst
is in progress, the `next_slot_start_of_burst_` flag, and the packets
handed to `controller_->missed` (in order). -/
structure MacSt where
  txBurst : Bool
  next_slot_start_of_burst : Bool
  missedPkts : List Nat

/-- `SlottedMAC::missedSlot`: close the slot and hand every modulated
packet that is not a timestamp packet to `controller_->missed`. -/
def missedSlot (s : Slot) : Slot × List Nat :=
  ({ s with closed := true },
    (s.mpkts.filter (fun p => ! p.isTimestamp)).map MPkt.pktId)

/-- `SlottedMAC::finalizeSlot(when)`: pop slots whose deadline is past
(or approximately equal to `when`); a slot approximately at `when` is
closed and returned; a strictly late slot is discarded after stopping
the TX burst, marking the next slot as a fresh start of burst, and
reporting its packets missed; a slot still in the future stays queued
and `nullptr` is returned. -/
def finalizeSlot (approx : Int → Int → Bool) (when : Int) :
    List Slot → MacSt → Option Slot × List Slot × MacSt
  | [], st => (none, [], st)
  | s :: rest, st =>
    if s.deadline < when ∨ approx s.deadline when = true then
      if approx s.deadline when = true then
        (some { s with closed := true }, rest, st)
      else
        finalizeSlot approx when rest
          { st with
              txBurst := false
              next_slot_start_of_burst := true
              missedPkts := st.missedPkts ++ (missedSlot s).2 }
    else
      (none, s :: rest, st)

/-- C7: when `finalizeSlot(when)` finds the head slot with deadline
strictly before `when` and not approximately equal to it, that slot is
popped and discarded: it is marked closed and its non-timestamp packets
are handed to `controller_->missed` (`missedSlot`), the TX burst is
stopped, the next slot is marked as a fresh start of burst, and the
loop continues with the remaining queued slots. -/
theorem finalizeSlot_missed_head (approx : Int → Int → Bool) (when : Int)
    (s : Slot) (rest : List Slot) (st : MacSt)
    (hd : s.deadline < when) (ha : approx s.deadline when = false) :
    finalizeSlot approx when (s :: rest) st =
      finalizeSlot approx when rest
        { st with
            txBurst := false
            next_slot_start_of_burst := true
            missedPkts := st.missedPkts ++ (missedSlot s).2 } ∧
    (missedSlot s).1.closed = true ∧
    (missedSlot s).2 = (s.mpkts.filter (fun p => ! p.isTimestamp)).map MPkt.pktId := by
  refine ⟨?_, rfl, rfl⟩
  show (if s.deadline < when ∨ approx s.deadline when = true then
        if approx s.deadline when = true then
          (some { s with closed := true }, rest, st)
        else
          finalizeSlot approx when rest
            { st with
                txBurst := false
                next_slot_start_of_burst := true
                missedPkts := st.missedPkts ++ (missedSlot s).2 }
        else (none, s :: rest, st)) = _
  rw [if_pos (Or.inl hd), if_neg (by rw [ha]; exact Bool.false_ne_true)]

/-- A concrete missed slot: deadline 5, finalized at `when = 10` with
equality as `approx`; its data packet 7 is reported missed and its
timestamp packet 8 is not. -/
def c7Slot : Slot :=
  { deadline := 5, mpkts := [⟨false, 7⟩, ⟨true, 8⟩], closed := false }

theorem finalizeSlot_missed_head_witness :
    c7Slot.deadline < 10 ∧ (fun a b : Int => a == b) c7Slot.deadline 10 = false ∧
    (finalizeSlot (fun a b : Int => a == b) 10 [c7Slot] ⟨true, false, []⟩ =
      finalizeSlot (fun a b : Int => a == b) 10 []
        { txBurst := false
          next_slot_start_of_burst := true
          missedPkts := [] ++ (missedSlot c7Slot).2 } ∧
    (missedSlot c7Slot).1.closed = true ∧
    (missedSlot c7Slot).2 =
      (c7Slot.mpkts.filter (fun p => ! p.isTimestamp)).map MPkt.pktId) :=
  ⟨by decide, by decide,
    finalizeSlot_missed_head (fun a b : Int => a == b) 10 c7Slot [] ⟨true, false, []⟩
      (by decide) (by decide)⟩

/-! ## C8/C10: ACK/NAK injection guards and the explicit-NAK rate limiter

`SmartController::nak(recvw, seq)` (lines 613-661): after the `netq_`
and `can_transmit` guards and the zero-sized-window guard, the
ring-buffered rate limiter is consulted: if
`explicit_nak_win[explicit_nak_idx] + explicit_nak_win_duration_ > now`
the NAK is suppressed; otherwise the entry is overwritten with `now`,
the index advances circularly, and the NAK packet (with appended
feedback, which clears `need_selective_ack`) is pushed.  Times are
modeled as `Nat`; the ring size equals `explicit_nak_win_` (the vector
is constructed with that size). -/
def nak (cfg : Cfg) (sack : Bool) (dur : Nat) (rw : RecvW) (now : Nat) : RecvW × Bool :=
  if !cfg.hasNetq then (rw, false)
  else if !cfg.meCanTransmit then (rw, false)
  else if rw.explicit_nak_win.length = 0 then (rw, false)
  else if rw.explicit_nak_win.getD rw.explicit_nak_idx 0 + dur > now then (rw, false)
  else
    ({ rw with
        explicit_nak_win := rw.explicit_nak_win.set rw.explicit_nak_idx now
        explicit_nak_idx := (rw.explicit_nak_idx + 1) % rw.explicit_nak_win.length
        need_selective_ack := if sack then false else rw.need_selective_ack }, true)

/-- Run `nak` over a list of call times; the second component collects
the times at which a NAK was actually emitted, in order. -/
def nakRun (cfg : Cfg) (sack : Bool) (dur : Nat) : RecvW → List Nat → RecvW × List Nat
  | rw, [] => (rw, [])
  | rw, t :: ts =>
    ((nakRun cfg sack dur (nak cfg sack dur rw t).1 ts).1,
      (if (nak cfg sack dur rw t).2 then [t] else []) ++
        (nakRun cfg sack dur (nak cfg sack dur rw t).1 ts).2)

/-- Either `nak` suppresses (state unchanged, nothing emitted), or all
guards passed — in particular the ring entry at the current index is at
least `dur` old — and the entry is overwritten with `now`. -/
theorem nak_cases (cfg : Cfg) (sack : Bool) (dur : Nat) (rw : RecvW) (t : Nat) :
    nak cfg sack dur rw t = (rw, false) ∨
    (0 < rw.explicit_nak_win.length ∧
      rw.explicit_nak_win.getD rw.explicit_nak_idx 0 + dur ≤ t ∧
      nak cfg sack dur rw t =
        ({ rw with
            explicit_nak_win := rw.explicit_nak_win.set rw.explicit_nak_idx t
            explicit_nak_idx := (rw.explicit_nak_idx + 1) % rw.explicit_nak_win.length
            need_selective_ack := if sack then false else rw.need_selective_ack }, true)) := by
  unfold nak
  split
  · exact Or.inl rfl
  · split
    · exact Or.inl rfl
    · split
      · exact Or.inl rfl
      · split
        · exact Or.inl rfl
        · rename_i h1 h2 h3 h4
          exact Or.inr ⟨by omega, by omega, rfl⟩

/-- `List.getD` after `List.set` at the written index. -/
theorem getD_set_self (l : List Nat) (i x : Nat) (h : i < l.length) :
    (l.set i x).getD i 0 = x := by
  simp [List.getD_eq_getElem?_getD, List.getElem?_set_self h]

/-- `List.getD` after `List.set` at a different index. -/
theorem getD_set_ne (l : List Nat) (i j x : Nat) (h : i ≠ j) :
    (l.set i x).getD j 0 = l.getD j 0 := by
  simp [List.getD_eq_getElem?_getD, List.getElem?_set_ne h]

/-- `List.getD` on an append, left part. -/
theorem getD_append_left (l₁ l₂ : List Nat) (n : Nat) (h : n < l₁.length) :
    (l₁ ++ l₂).getD n 0 = l₁.getD n 0 := by
  simp [List.getD_eq_getElem?_getD, List.getElem?_append_left h]

/-- `List.getD` on an append, right part. -/
theorem getD_append_right (l₁ l₂ : List Nat) (n : Nat) (h : l₁.length ≤ n) :
    (l₁ ++ l₂).getD n 0 = l₂.getD (n - l₁.length) 0 := by
  simp [List.getD_eq_getElem?_getD, List.getElem?_append_right h]

/-- Adding a nonzero shift smaller than the modulus changes the
residue. -/
theorem mod_shift_ne {N k d : Nat} (hd1 : 0 < d) (hd2 : d < N) :
    (k + d) % N ≠ k % N := by
  intro h
  have h2 : (k % N + d) % N = k % N := by
    rw [Nat.mod_add_mod]
    exact h
  rcases Nat.lt_or_ge (k % N + d) N with hlt | hge
  · rw [Nat.mod_eq_of_lt hlt] at h2
    omega
  · rw [Nat.mod_eq_sub_mod hge] at h2
    have hlt2 : k % N + d - N < N := by
      have := Nat.mod_lt k (show 0 < N by omega)
      omega
    rw [Nat.mod_eq_of_lt hlt2] at h2
    omega

/-- Ring invariant induction for the explicit-NAK rate limiter: if the
ring holds the times of the last `N` emissions (with the initial zero
padding), every emission is at least `dur` later than the emission `N`
places before it, and this is preserved by the run. -/
theorem nakRun_spacing_aux (cfg : Cfg) (sack : Bool) (dur N : Nat) (hN : 0 < N) :
    ∀ (ts : List Nat) (rw : RecvW) (E : List Nat),
      rw.explicit_nak_win.length = N →
      rw.explicit_nak_idx = E.length % N →
      (∀ r, r < N →
        rw.explicit_nak_win.getD ((E.length + r) % N) 0 =
          (List.replicate N 0 ++ E).getD (E.length + r) 0) →
      (∀ i, i + N < E.length → E.getD i 0 + dur ≤ E.getD (i + N) 0) →
      ∀ i, i + N < (E ++ (nakRun cfg sack dur rw ts).2).length →
        (E ++ (nakRun cfg sack dur rw ts).2).getD i 0 + dur ≤
          (E ++ (nakRun cfg sack dur rw ts).2).getD (i + N) 0 := by
  intro ts
  induction ts with
  | nil =>
    intro rw E h1 h2 h3 h4 i hi
    simp only [nakRun, List.append_nil] at hi ⊢
    exact h4 i (by simpa using hi)
  | cons t ts ih =>
    intro rw E h1 h2 h3 h4
    rcases nak_cases cfg sack dur rw t with heq | ⟨hpos, hg, heq⟩
    · have hstep : (nakRun cfg sack dur rw (t :: ts)).2 =
          (nakRun cfg sack dur rw ts).2 := by
        simp only [nakRun, heq]
        simp
      intro i hi
      rw [hstep] at hi ⊢
      exact ih rw E h1 h2 h3 h4 i hi
    · have hstep : (nakRun cfg sack dur rw (t :: ts)).2 =
          [t] ++ (nakRun cfg sack dur
            { rw with
                explicit_nak_win := rw.explicit_nak_win.set rw.explicit_nak_idx t
                explicit_nak_idx := (rw.explicit_nak_idx + 1) % rw.explicit_nak_win.length
                need_selective_ack := if sack then false else rw.need_selective_ack }
            ts).2 := by
        simp only [nakRun, heq]
        simp
      have hguard : (List.replicate N 0 ++ E).getD E.length 0 + dur ≤ t := by
        have hg0 := h3 0 hN
        rw [Nat.add_zero] at hg0
        rw [← h2] at hg0
        rw [← hg0]
        exact hg
      have i1 : (rw.explicit_nak_win.set rw.explicit_nak_idx t).length = N := by
        simp [h1]
      have i2 : (rw.explicit_nak_idx + 1) % rw.explicit_nak_win.length =
          (E ++ [t]).length % N := by
        rw [h1, h2, Nat.mod_add_mod]
        simp
      have i3 : ∀ r, r < N →
          (rw.explicit_nak_win.set rw.explicit_nak_idx t).getD
            (((E ++ [t]).length + r) % N) 0 =
          (List.replicate N 0 ++ (E ++ [t])).getD ((E ++ [t]).length + r) 0 := by
        intro r hr
        have hlen1 : (E ++ [t]).length = E.length + 1 := by simp
        rw [hlen1]
        have hWr : List.replicate N 0 ++ (E ++ [t]) =
            (List.replicate N 0 ++ E) ++ [t] := by
          rw [List.append_assoc]
        rw [hWr]
        have hWlen : (List.replicate N 0 ++ E).length = N + E.length := by simp
        by_cases hlast : r = N - 1
        · subst hlast
          have hidx : (E.length + 1 + (N - 1)) % N = rw.explicit_nak_idx := by
            rw [h2]
            rw [show E.length + 1 + (N - 1) = E.length + N from by omega]
            rw [Nat.add_mod_right]
          rw [hidx]
          rw [getD_set_self _ _ _ (by rw [h1, h2]; exact Nat.mod_lt _ hN)]
          rw [getD_append_right (List.replicate N 0 ++ E) [t]
            (E.length + 1 + (N - 1)) (by rw [hWlen]; omega)]
          rw [hWlen]
          rw [show E.length + 1 + (N - 1) - (N + E.length) = 0 from by omega]
          rfl
        · have hr1 : r + 1 < N := by omega
          rw [show E.length + 1 + r = E.length + (r + 1) from by omega]
          have hne : (E.length + (r + 1)) % N ≠ rw.explicit_nak_idx := by
            rw [h2]
            exact mod_shift_ne (by omega) hr1
          rw [getD_set_ne _ _ _ _ (Ne.symm hne)]
          rw [h3 (r + 1) hr1]
          rw [getD_append_left (List.replicate N 0 ++ E) [t] (E.length + (r + 1))
            (by rw [hWlen]; omega)]
      have i4 : ∀ i, i + N < (E ++ [t]).length →
          (E ++ [t]).getD i 0 + dur ≤ (E ++ [t]).getD (i + N) 0 := by
        intro i hi
        rw [List.length_append, List.length_singleton] at hi
        rcases Nat.lt_or_ge (i + N) E.length with hlt | hge
        · rw [getD_append_left _ _ _ (by omega), getD_append_left _ _ _ hlt]
          exact h4 i hlt
        · have hEq : i + N = E.length := by omega
          rw [getD_append_left _ _ _ (by omega)]
          rw [hEq, getD_append_right _ _ _ (Nat.le_refl _)]
          rw [Nat.sub_self]
          show E.getD i 0 + dur ≤ t
          have hW := hguard
          rw [getD_append_right (List.replicate N 0) E E.length
            (by simp; omega)] at hW
          rw [show E.length - (List.replicate N 0).length = i from by simp; omega] at hW
          exact hW
      intro i hi
      rw [hstep] at hi ⊢
      rw [← List.append_assoc] at hi ⊢
      exact ih _ (E ++ [t]) i1 i2 i3 i4 i hi

/-- C8 (amended): the ring-buffered rate limiter of
`SmartController::nak` bounds the explicit-NAK rate at
`explicit_nak_win.size()` NAKs per `explicit_nak_win_duration` — not at
one: starting from the freshly initialized ring (all zeros, index 0),
along any sequence of calls the `(i + N)`-th emitted NAK is at least
`dur` later than the `i`-th, where `N` is the ring size.  (`nak`
enqueues only when the oldest ring entry is at least `dur` old,
overwriting it with `now`.) -/
theorem nak_rate_limit (cfg : Cfg) (sack : Bool) (dur : Nat) (rw : RecvW)
    (ts : List Nat) (hN : 0 < rw.explicit_nak_win.length)
    (hring : rw.explicit_nak_win = List.replicate rw.explicit_nak_win.length 0)
    (hidx : rw.explicit_nak_idx = 0) :
    ∀ i, i + rw.explicit_nak_win.length < (nakRun cfg sack dur rw ts).2.length →
      (nakRun cfg sack dur rw ts).2.getD i 0 + dur ≤
        (nakRun cfg sack dur rw ts).2.getD (i + rw.explicit_nak_win.length) 0 := by
  intro i hi
  have hbase3 : ∀ r, r < rw.explicit_nak_win.length →
      rw.explicit_nak_win.getD
        ((([] : List Nat).length + r) % rw.explicit_nak_win.length) 0 =
      (List.replicate rw.explicit_nak_win.length 0 ++ ([] : List Nat)).getD
        (([] : List Nat).length + r) 0 := by
    intro r hr
    simp only [List.length_nil, Nat.zero_add, List.append_nil]
    rw [Nat.mod_eq_of_lt hr]
    conv_lhs => rw [hring]
  have hbase4 : ∀ j, j + rw.explicit_nak_win.length < ([] : List Nat).length →
      ([] : List Nat).getD j 0 + dur ≤
        ([] : List Nat).getD (j + rw.explicit_nak_win.length) 0 := by
    intro j hj
    simp at hj
  have h := nakRun_spacing_aux cfg sack dur rw.explicit_nak_win.length hN ts rw []
    rfl (by simp [hidx]) hbase3 hbase4 i (by simpa using hi)
  simpa using h

/-- A receive window with a two-entry NAK ring, as freshly
initialized. -/
def c8Rw : RecvW :=
  { ack := 0, maxSeq := 0, win := 1, received := fun _ => false,
    need_selective_ack := false, explicit_nak_win := [0, 0], explicit_nak_idx := 0 }

/-- A configuration in which all transmission guards pass. -/
def c8Cfg : Cfg :=
  { peerCanTransmit := true, meCanTransmit := true, hasNetq := true,
    moveAlong := true }

/-- C8 counterexample to "at most one NAK per
`explicit_nak_win_duration`": with a two-entry ring (both slots holding
the initial time 0) and duration 10, two calls at time 100 both emit a
NAK — two NAKs inside one duration window. -/
theorem nak_rate_limit_counterexample :
    (nakRun c8Cfg true 10 c8Rw [100, 100]).2 = [100, 100] ∧
    List.countP (fun e => decide (100 ≤ e ∧ e < 100 + 10))
      (nakRun c8Cfg true 10 c8Rw [100, 100]).2 = 2 := by
  decide

/-- A receive window with a one-entry NAK ring. -/
def c8RwW : RecvW :=
  { ack := 0, maxSeq := 0, win := 1, received := fun _ => false,
    need_selective_ack := false, explicit_nak_win := [0], explicit_nak_idx := 0 }

theorem nak_rate_limit_witness :
    0 < c8RwW.explicit_nak_win.length ∧
    c8RwW.explicit_nak_win = List.replicate c8RwW.explicit_nak_win.length 0 ∧
    c8RwW.explicit_nak_idx = 0 ∧
    ∀ i, i + c8RwW.explicit_nak_win.length <
        (nakRun c8Cfg true 5 c8RwW [10, 12, 20]).2.length →
      (nakRun c8Cfg true 5 c8RwW [10, 12, 20]).2.getD i 0 + 5 ≤
        (nakRun c8Cfg true 5 c8RwW [10, 12, 20]).2.getD
          (i + c8RwW.explicit_nak_win.length) 0 :=
  ⟨by decide, by decide, by decide,
    nak_rate_limit c8Cfg true 5 c8RwW [10, 12, 20] (by decide) (by decide)
      (by decide)⟩

/-! ## C9: MCS transition probabilities

The operations `SmartController::updateMCS` and
`SmartController::resetMCSTransitionProbabilities` perform on a send
window's `mcsidx_prob` vector (of `double`s, modeled as `ℚ`): a
down-shift decays the current entry by `mcsidx_alpha_` with floor
`mcsidx_prob_floor_` (line 1305), passing the long-PER test sets the
entry to `1.0` (line 1344), and a reset refills the vector with `1.0`
(line 730).  The vector is created with all entries `1.0`. -/
inductive MCSOp where
  | down (i : Nat)
  | pass (i : Nat)
  | reset

def mcsStep (alpha floor : ℚ) (v : List ℚ) : MCSOp → List ℚ
  | .down i => v.set i (max (v.getD i 1 * alpha) floor)
  | .pass i => v.set i 1
  | .reset => v.map (fun _ => 1)

def mcsRun (alpha floor : ℚ) (v : List ℚ) (ops : List MCSOp) : List ℚ :=
  List.foldl (mcsStep alpha floor) v ops

/-- One operation preserves the interval `[floor, 1]`. -/
theorem mcsStep_bounds (alpha floor : ℚ) (hf0 : 0 ≤ floor) (hf1 : floor ≤ 1)
    (ha0 : 0 ≤ alpha) (ha1 : alpha ≤ 1) (v : List ℚ)
    (hv : ∀ x ∈ v, floor ≤ x ∧ x ≤ 1) (op : MCSOp) :
    ∀ x ∈ mcsStep alpha floor v op, floor ≤ x ∧ x ≤ 1 := by
  cases op with
  | down i =>
    intro x hx
    rcases List.mem_or_eq_of_mem_set hx with hm | he
    · exact hv x hm
    · have hvi : floor ≤ v.getD i 1 ∧ v.getD i 1 ≤ 1 := by
        rw [List.getD_eq_getElem?_getD]
        cases h : v[i]? with
        | none => exact ⟨hf1, le_refl 1⟩
        | some y =>
          simp only [Option.getD_some]
          exact hv y (List.getElem?_mem h)
      subst he
      constructor
      · exact le_max_right _ _
      · apply max_le _ hf1
        exact mul_le_one₀ hvi.2 ha0 ha1
  | pass i =>
    intro x hx
    rcases List.mem_or_eq_of_mem_set hx with hm | he
    · exact hv x hm
    · subst he
      exact ⟨hf1, le_refl 1⟩
  | reset =>
    intro x hx
    obtain ⟨y, -, he⟩ := List.mem_map.mp hx
    subst he
    exact ⟨hf1, le_refl 1⟩

/-- The interval `[floor, 1]` is preserved along any run. -/
theorem mcsRun_bounds (alpha floor : ℚ) (hf0 : 0 ≤ floor) (hf1 : floor ≤ 1)
    (ha0 : 0 ≤ alpha) (ha1 : alpha ≤ 1) :
    ∀ (ops : List MCSOp) (v : List ℚ), (∀ x ∈ v, floor ≤ x ∧ x ≤ 1) →
      ∀ x ∈ mcsRun alpha floor v ops, floor ≤ x ∧ x ≤ 1 := by
  intro ops
  induction ops with
  | nil => exact fun v h => h
  | cons op ops ih =>
    intro v hv
    exact ih (mcsStep alpha floor v op)
      (mcsStep_bounds alpha floor hf0 hf1 ha0 ha1 v hv op)

/-- C9: assuming `0 ≤ mcsidx_prob_floor ≤ 1` and `0 ≤ mcsidx_alpha ≤ 1`,
every entry of the `mcsidx_prob` vector stays in `[floor, 1]` across
every sequence of down-shift, long-PER-pass, and reset operations,
starting from the all-ones initialization. -/
theorem mcsidx_prob_bounds (alpha floor : ℚ) (n : Nat) (ops : List MCSOp)
    (hf0 : 0 ≤ floor) (hf1 : floor ≤ 1) (ha0 : 0 ≤ alpha) (ha1 : alpha ≤ 1) :
    ∀ x ∈ mcsRun alpha floor (List.replicate n 1) ops, floor ≤ x ∧ x ≤ 1 := by
  apply mcsRun_bounds alpha floor hf0 hf1 ha0 ha1
  intro x hx
  rw [List.eq_of_mem_replicate hx]
  exact ⟨hf1, le_refl 1⟩

theorem mcsidx_prob_bounds_witness :
    (0 : ℚ) ≤ 1 / 4 ∧ (1 : ℚ) / 4 ≤ 1 ∧ (0 : ℚ) ≤ 1 / 2 ∧ (1 : ℚ) / 2 ≤ 1 ∧
    ∀ x ∈ mcsRun (1 / 2) (1 / 4) (List.replicate 3 1)
        [MCSOp.down 0, MCSOp.pass 1, MCSOp.down 0, MCSOp.down 0, MCSOp.reset],
      (1 : ℚ) / 4 ≤ x ∧ x ≤ 1 :=
  ⟨by norm_num, by norm_num, by norm_num, by norm_num,
    mcsidx_prob_bounds (1 / 2) (1 / 4) 3
      [MCSOp.down 0, MCSOp.pass 1, MCSOp.down 0, MCSOp.down 0, MCSOp.reset]
      (by norm_num) (by norm_num) (by norm_num) (by norm_num)⟩

/-- `SmartController::ack(recvw)` (lines 584-611): after the `netq_`
and `can_transmit` guards, an ACK-only packet is composed
(`appendFeedback` clears `need_selective_ack` when selective ACKs are
enabled) and pushed onto the network queue.  The `Bool` reports whether
a packet was enqueued.  (Named `ackM` because `ack` is taken.) -/
def ackM (cfg : Cfg) (sack : Bool) (rw : RecvW) : RecvW × Bool :=
  if !cfg.hasNetq then (rw, false)
  else if !cfg.meCanTransmit then (rw, false)
  else ({ rw with need_selective_ack := if sack then false else rw.need_selective_ack },
    true)

/-- `SmartController::broadcastHello()` (lines 663-718): after the same
two guards, a HELLO packet is pushed.  No per-neighbor state is
touched; the `Bool` reports whether a packet was enqueued. -/
def broadcastHello (cfg : Cfg) : Bool :=
  cfg.hasNetq && cfg.meCanTransmit

/-- C10: if no network queue has been set or the local node cannot
transmit, then `ack`, `nak` and `broadcastHello` all return without
enqueueing a packet and without modifying any controller state: the
receive window (including the explicit-NAK ring and index and the
`need_selective_ack` flag) is returned unchanged. -/
theorem injection_guards_frame (cfg : Cfg) (sack : Bool) (dur : Nat) (rw : RecvW)
    (now : Nat) (h : cfg.hasNetq = false ∨ cfg.meCanTransmit = false) :
    ackM cfg sack rw = (rw, false) ∧
    nak cfg sack dur rw now = (rw, false) ∧
    broadcastHello cfg = false := by
  obtain h | h := h
  · simp [ackM, nak, broadcastHello, h]
  · cases hq : cfg.hasNetq <;> simp [ackM, nak, broadcastHello, h, hq]

/-- A configuration with no network queue attached. -/
def c10Cfg : Cfg :=
  { peerCanTransmit := true, meCanTransmit := true, hasNetq := false,
    moveAlong := true }

theorem injection_guards_frame_witness :
    (c10Cfg.hasNetq = false ∨ c10Cfg.meCanTransmit = false) ∧
    (ackM c10Cfg true c8Rw = (c8Rw, false) ∧
      nak c10Cfg true 10 c8Rw 100 = (c8Rw, false) ∧
      broadcastHello c10Cfg = false) :=
  ⟨Or.inl (by decide), injection_guards_frame c10Cfg true 10 c8Rw 100
    (Or.inl (by decide))⟩
